import Mathlib

/-!
Shallow embedding of the `pif` forward-chaining rule-saturation engine
(`src/lib.rs`, `Sniffer`).  The modules `ast`, `identifiers`, `unify`,
`union_find` and `derivation_tree` are referenced by `lib.rs` but their
sources are not part of the repository snapshot; those parts are modelled
from the specification (each such definition says so in its doc comment).
Everything else is translated from `lib.rs` directly.
-/

namespace Pif

/-- Modelled from the spec: a surface-level term of the external parser
boundary (`ast` module, not under src/) -- a plain-name constant or a
plain-name variable. -/
inductive STerm where
  | const (name : String)
  | var (name : String)
deriving DecidableEq, Repr

/-- Modelled from the spec: a surface atom `Atom<String>` -- a predicate
name applied to an ordered list of surface terms. -/
structure SAtom where
  pred : String
  args : List STerm
deriving DecidableEq, Repr

/-- Modelled from the spec: a surface rule record `{premises, conclusion}`
as produced by the external parser. -/
structure SRule where
  premises : List SAtom
  conclusion : SAtom
deriving DecidableEq, Repr

/-- Modelled from the spec: an internal term -- an interned constant
identifier or a variable marker scoped to one rule/atom conversion. -/
inductive ITerm where
  | const (id : Nat)
  | var (idx : Nat)
deriving DecidableEq, Repr

/-- Modelled from the spec: an internal atom (`InnerAtom`) -- interned
predicate identifier plus internal-term arguments. -/
structure IAtom where
  pred : Nat
  args : List ITerm
deriving DecidableEq, Repr

/-- Modelled from the spec: an internal rule (`InnerRule`). -/
structure IRule where
  premises : List IAtom
  conclusion : IAtom
deriving DecidableEq, Repr

/-- True iff the term is a constant (variable-free). -/
def ITerm.isGround : ITerm → Bool
  | .const _ => true
  | .var _ => false

/-- True iff every argument of the internal atom is a constant. -/
def IAtom.isGround (a : IAtom) : Bool :=
  a.args.all ITerm.isGround

/-- True iff the surface term is a constant. -/
def STerm.isGround : STerm → Bool
  | .const _ => true
  | .var _ => false

/-- True iff every argument of the surface atom is a constant. -/
def SAtom.isGround (a : SAtom) : Bool :=
  a.args.all STerm.isGround

/-- First index of a name in a list of names (the lookup direction of the
interner's bidirectional table). -/
def lookupName (n : String) : List String → Option Nat
  | [] => none
  | m :: ms => if m = n then some 0 else (lookupName n ms).map (· + 1)

/-- Modelled from the spec: the identifier interner (`identifiers` module,
not under src/) -- a session-scoped bidirectional table between names and
compact identifiers, with no removal. -/
structure IdentifierServer where
  names : List String
deriving DecidableEq, Repr

/-- Modelled from the spec: `intern` is idempotent and total -- an already
seen name yields its existing identifier, a fresh name is appended. -/
def IdentifierServer.intern (ids : IdentifierServer) (n : String) :
    Nat × IdentifierServer :=
  match lookupName n ids.names with
  | some i => (i, ids)
  | none => (ids.names.length, ⟨ids.names ++ [n]⟩)

/-- Modelled from the spec: `resolve` maps an identifier back to its name,
failing (`UnknownIdentifier`) on a handle that did not originate here. -/
def IdentifierServer.resolve (ids : IdentifierServer) (i : Nat) : Option String :=
  ids.names.get? i

/-- Modelled from the spec: the substitution built by the union-find-backed
unifier (`unify` / `union_find` modules, not under src/).  Bindings are
kept fully resolved: every bound variable maps in one step to its current
representative term. -/
def Subst := List (Nat × ITerm)

instance : DecidableEq Subst := by
  unfold Subst
  infer_instance

/-- Resolves a term through the substitution (the `resolve` operation of
the unifier): one lookup step suffices because bindings are kept flat. -/
def walk (σ : Subst) : ITerm → ITerm
  | .const c => .const c
  | .var v =>
    match List.lookup v σ with
    | some t => t
    | none => .var v

/-- Binds variable `v` to term `t` (the union-find `union`), rewriting
existing bindings that pointed at `v` so the substitution stays flat. -/
def bindVar (σ : Subst) (v : Nat) (t : ITerm) : Subst :=
  (v, t) :: List.map (fun p => (p.1, if p.2 = ITerm.var v then t else p.2)) σ

/-- Modelled from the spec: unifies two terms under an evolving
substitution.  Two constants unify iff identical; a variable binds to the
other side's representative; two variables merge classes. -/
def unifyTerm (σ : Subst) (a b : ITerm) : Option Subst :=
  match walk σ a, walk σ b with
  | .const c, .const d => if c = d then some σ else none
  | .var x, .const d => some (bindVar σ x (.const d))
  | .const c, .var y => some (bindVar σ y (.const c))
  | .var x, .var y => if x = y then some σ else some (bindVar σ x (.var y))

/-- Unifies two argument lists pairwise left-to-right, threading the
substitution; fails on an arity mismatch. -/
def unifyArgs : Subst → List ITerm → List ITerm → Option Subst
  | σ, [], [] => some σ
  | σ, a :: as', b :: bs' => (unifyTerm σ a b).bind fun σ' => unifyArgs σ' as' bs'
  | _, _, _ => none

/-- Modelled from the spec: `unify` on atoms -- fails if the predicates
differ or the arities differ, otherwise unifies arguments pairwise. -/
def unifyAtom (σ : Subst) (a b : IAtom) : Option Subst :=
  if a.pred = b.pred then unifyArgs σ a.args b.args else none

/-- Applies a substitution to every argument of an atom. -/
def applySubst (σ : Subst) (a : IAtom) : IAtom :=
  ⟨a.pred, a.args.map (walk σ)⟩

/-- Modelled from the spec: failure kinds of `assign` -- a positional
unification failure, or a conclusion left partially uninstantiated. -/
inductive AssignFailure where
  | premiseMismatch
  | unboundConclusion
deriving DecidableEq, Repr

/-- Unifies the rule's premises positionally against a tuple of candidate
facts, accumulating one substitution across all premises. -/
def unifyPremises : Subst → List IAtom → List IAtom → Option Subst
  | σ, [], [] => some σ
  | σ, p :: ps, f :: fs => (unifyAtom σ p f).bind fun σ' => unifyPremises σ' ps fs
  | _, _, _ => none

/-- Modelled from the spec: `assign` -- unify the premises positionally
against the given facts, then apply the final substitution to the
conclusion; reject the application (`UnboundConclusion`) unless the
instantiated conclusion is fully ground.  On success the resulting rule
records the facts used as its premises. -/
def IRule.assign (r : IRule) (facts : List IAtom) : Except AssignFailure IRule :=
  match unifyPremises [] r.premises facts with
  | none => .error .premiseMismatch
  | some σ =>
    let concl := applySubst σ r.conclusion
    if concl.isGround then .ok ⟨facts, concl⟩ else .error .unboundConclusion

/-- Modelled from the spec: surface-to-internal conversion of argument
lists (`Atom::from` in the `ast` module, not under src/), interning
constant names and numbering variables by first occurrence within the
scope `vars`. -/
def internTerms (ids : IdentifierServer) (vars : List String) :
    List STerm → List ITerm × IdentifierServer × List String
  | [] => ([], ids, vars)
  | .const n :: ts =>
    let (i, ids') := ids.intern n
    let (rest, ids'', vars') := internTerms ids' vars ts
    (.const i :: rest, ids'', vars')
  | .var n :: ts =>
    match lookupName n vars with
    | some v =>
      let (rest, ids', vars') := internTerms ids vars ts
      (.var v :: rest, ids', vars')
    | none =>
      let (rest, ids', vars') := internTerms ids (vars ++ [n]) ts
      (.var vars.length :: rest, ids', vars')

/-- Modelled from the spec: surface-to-internal conversion of one atom,
interning its predicate and constant names. -/
def internSAtom (ids : IdentifierServer) (vars : List String) (a : SAtom) :
    IAtom × IdentifierServer × List String :=
  let (p, ids') := ids.intern a.pred
  let (ts, ids'', vars') := internTerms ids' vars a.args
  (⟨p, ts⟩, ids'', vars')

/-- Surface-to-internal conversion of a list of atoms sharing one variable
scope. -/
def internAtoms (ids : IdentifierServer) (vars : List String) :
    List SAtom → List IAtom × IdentifierServer × List String
  | [] => ([], ids, vars)
  | a :: rest =>
    let (ia, ids', vars') := internSAtom ids vars a
    let (irest, ids'', vars'') := internAtoms ids' vars' rest
    (ia :: irest, ids'', vars'')

/-- Modelled from the spec: surface-to-internal conversion of a rule
(`Rule::from`), premises first then the conclusion, one variable scope for
the whole record. -/
def internSRule (ids : IdentifierServer) (r : SRule) : IRule × IdentifierServer :=
  let (ps, ids', vars') := internAtoms ids [] r.premises
  let (c, ids'', _) := internSAtom ids' vars' r.conclusion
  (⟨ps, c⟩, ids'')

/-- Modelled from the spec: read-only surface-to-internal conversion of an
argument list (`Atom::try_from` against an immutable interner), failing on
a constant name the interner does not know. -/
def toITermsRO (ids : IdentifierServer) :
    List STerm → List String → Option (List ITerm)
  | [], _ => some []
  | .const n :: ts, vars =>
    match lookupName n ids.names with
    | none => none
    | some i => (toITermsRO ids ts vars).map (ITerm.const i :: ·)
  | .var n :: ts, vars =>
    match lookupName n vars with
    | some v => (toITermsRO ids ts vars).map (ITerm.var v :: ·)
    | none => (toITermsRO ids ts (vars ++ [n])).map (ITerm.var vars.length :: ·)

/-- Modelled from the spec: read-only surface-to-internal conversion of an
atom, failing with `UnknownIdentifier` on an unknown name. -/
def toIAtomRO (ids : IdentifierServer) (a : SAtom) : Option IAtom :=
  match lookupName a.pred ids.names, toITermsRO ids a.args [] with
  | some p, some ts => some ⟨p, ts⟩
  | _, _ => none

/-- Modelled from the spec: internal-to-surface rendering of one term
through the interner's reverse mapping. -/
def resolveITerm (ids : IdentifierServer) : ITerm → Option STerm
  | .const i => (ids.resolve i).map STerm.const
  | .var v => some (STerm.var (Nat.repr v))

/-- Internal-to-surface rendering of an argument list, failing on the
first unknown identifier. -/
def resolveITerms (ids : IdentifierServer) : List ITerm → Option (List STerm)
  | [] => some []
  | t :: ts =>
    match resolveITerm ids t, resolveITerms ids ts with
    | some s, some ss => some (s :: ss)
    | _, _ => none

/-- Modelled from the spec: internal-to-surface rendering of an atom
(`Atom::try_from` towards surface form), failing with `UnknownIdentifier`
on a handle the interner does not know. -/
def toSAtomRO (ids : IdentifierServer) (a : IAtom) : Option SAtom :=
  match ids.resolve a.pred, resolveITerms ids a.args with
  | some p, some ts => some ⟨p, ts⟩
  | _, _ => none

/-- Internal-to-surface rendering of a list of atoms, failing on the
first unknown identifier. -/
def toSAtomsRO (ids : IdentifierServer) : List IAtom → Option (List SAtom)
  | [] => some []
  | a :: rest =>
    match toSAtomRO ids a, toSAtomsRO ids rest with
    | some sa, some srest => some (sa :: srest)
    | _, _ => none

/-- Looks a key up in the justification map (first matching entry). -/
def dfLookup (m : List (IAtom × List IAtom)) (a : IAtom) : Option (List IAtom) :=
  match m with
  | [] => none
  | (b, ps) :: rest => if b = a then some ps else dfLookup rest a

/-- `HashMap::insert`: adds or overwrites the binding for a key. -/
def dfInsert (m : List (IAtom × List IAtom)) (a : IAtom) (ps : List IAtom) :
    List (IAtom × List IAtom) :=
  match dfLookup m a with
  | some _ => m.map fun p => if p.1 = a then (a, ps) else p
  | none => (a, ps) :: m

/-- `HashMap::entry(..).or_insert_with(..)`: adds the binding only when the
key is absent (first writer wins). -/
def dfOrInsert (m : List (IAtom × List IAtom)) (a : IAtom) (ps : List IAtom) :
    List (IAtom × List IAtom) :=
  match dfLookup m a with
  | some _ => m
  | none => (a, ps) :: m

/-- The saturation engine's state (`struct Sniffer`): fact set (`axioms`),
rule set (`generative_rules`, also called `clauses` in the source),
justification map (`derived_from`) and interner (`id_server`).  The hash
containers are modelled as lists whose membership is the set. -/
structure Sniffer where
  axioms : List IAtom
  generative_rules : List IRule
  derived_from : List (IAtom × List IAtom)
  id_server : IdentifierServer
deriving DecidableEq, Repr

/-- `Sniffer::default()`: everything empty. -/
def Sniffer.empty : Sniffer := ⟨[], [], [], ⟨[]⟩⟩

/-- `Sniffer::add_derived_axiom` (lib.rs lines 105-110): records the
justification only when the atom has none yet, then inserts the atom into
the fact set, reporting whether it was new. -/
def Sniffer.add_derived (s : Sniffer) (a : IAtom) (df : List IAtom) :
    Sniffer × Bool :=
  let d := dfOrInsert s.derived_from a df
  if s.axioms.contains a then
    ({ s with derived_from := d }, false)
  else
    ({ s with derived_from := d, axioms := s.axioms ++ [a] }, true)

/-- Modelled from the spec: `Sniffer::add_axiom` -- the seed-axiom helper is
commented out in lib.rs (lines 112-118) though still called at load time;
spec section 9 fixes its intended behavior: record an empty justification
entry and insert the atom into the fact set. -/
def Sniffer.add_seed (s : Sniffer) (a : IAtom) : Sniffer × Bool :=
  let d := dfInsert s.derived_from a []
  if s.axioms.contains a then
    ({ s with derived_from := d }, false)
  else
    ({ s with derived_from := d, axioms := s.axioms ++ [a] }, true)

/-- One step of `Sniffer::new` (lib.rs lines 46-55): an empty-premise
record seeds the fact set, any other record is interned into the rule
set. -/
def Sniffer.load_rule (s : Sniffer) (r : SRule) : Sniffer :=
  if r.premises = [] then
    let (ia, ids', _) := internSAtom s.id_server [] r.conclusion
    (Sniffer.add_seed { s with id_server := ids' } ia).1
  else
    let (ir, ids') := internSRule s.id_server r
    { s with
      id_server := ids',
      generative_rules :=
        if s.generative_rules.contains ir then s.generative_rules
        else s.generative_rules ++ [ir] }

/-- `Sniffer::new` minus the file reading and parsing (both external):
load every parsed record into the default state. -/
def Sniffer.new (records : List SRule) : Sniffer :=
  records.foldl Sniffer.load_rule Sniffer.empty

/-- The derivation pass of `Sniffer::saturate` (lib.rs lines 77-89): for
every rule, every combination of facts of the rule's premise count is
tried with `assign`; the successful instantiations are collected in
order. -/
def Sniffer.saturate_derived (s : Sniffer) : List IRule :=
  s.generative_rules.flatMap fun rule =>
    (List.sublistsLen rule.premises.length s.axioms).filterMap fun input =>
      (rule.assign input).toOption

/-- The insertion step of `Sniffer::saturate` (lib.rs lines 92-94):
`modified |= self.add_derived_axiom(r.conclusion, r.premises)`. -/
def satStep (acc : Sniffer × Bool) (r : IRule) : Sniffer × Bool :=
  let (s', b) := Sniffer.add_derived acc.1 r.conclusion r.premises
  (s', acc.2 || b)

/-- `Sniffer::saturate` (lib.rs lines 71-102) as a state transformer: run
the derivation pass, then insert every derived conclusion, reporting
whether any insertion was new. -/
def Sniffer.saturate (s : Sniffer) : Sniffer × Bool :=
  (s.saturate_derived).foldl satStep (s, false)

/-- Represents the result of a saturation attempt (lib.rs lines 204-208). -/
inductive SaturationFailure where
  | Saturated
  | DerivedBottom
deriving DecidableEq, Repr

/-- The result signature of `Sniffer::saturate`: `Ok` when the round made
progress, `Err(Saturated)` otherwise; the mutated state is returned
alongside because the Rust method works on `&mut self`. -/
def Sniffer.saturate_result (s : Sniffer) :
    Sniffer × Except SaturationFailure Unit :=
  let (s', modified) := s.saturate
  (s', if modified then .ok () else .error .Saturated)

/-- Modelled from the spec: the derivation tree (`derivation_tree` module,
not under src/) -- a node labeled with a surface atom owning its justifying
subtrees; `DerivationTree::new` makes a childless node, `insert` appends a
child. -/
inductive DerivationTree where
  | node (a : SAtom) (children : List DerivationTree)

/-- The surface atom at the root of a derivation tree. -/
def DerivationTree.rootAtom : DerivationTree → SAtom
  | .node a _ => a

/-- How a call of `Sniffer::derivation_tree` can come back empty: a `None`
path of the Rust code (`missing`), or exhaustion of the recursion bound of
this embedding (`outOfFuel` -- the Rust recursion has no such bound). -/
inductive BuildFailure where
  | missing
  | outOfFuel
deriving DecidableEq, Repr

/-- Sequences child results left to right, propagating the first failure
(the `?` operator inside the loop of `inner`). -/
def seqChildren :
    List (Except BuildFailure DerivationTree) →
    Except BuildFailure (List DerivationTree)
  | [] => .ok []
  | r :: rs =>
    match r with
    | .error e => .error e
    | .ok t =>
      match seqChildren rs with
      | .error e => .error e
      | .ok ts => .ok (t :: ts)

/-- The recursive helper `inner` of `Sniffer::derivation_tree` (lib.rs
lines 127-135): render the root back to surface form, look up its
justification, and recurse into every justifying premise.  The Rust
recursion is unbounded; `fuel` bounds it here and running out is reported
as `BuildFailure.outOfFuel`. -/
def Sniffer.dt_inner (s : Sniffer) : Nat → IAtom → Except BuildFailure DerivationTree
  | 0, _ => .error .outOfFuel
  | fuel + 1, root =>
    match toSAtomRO s.id_server root with
    | none => .error .missing
    | some sa =>
      match dfLookup s.derived_from root with
      | none => .error .missing
      | some ps =>
        match seqChildren (ps.map fun p => s.dt_inner fuel p) with
        | .error e => .error e
        | .ok ts => .ok (.node sa ts)

/-- `Sniffer::derivation_tree` (lib.rs lines 126-145): convert the surface
root read-only, look up its justification, and build the root node -- the
root keeps the surface atom as given (`root.clone()`), the children are
built by `dt_inner`. -/
def Sniffer.derivation_tree (s : Sniffer) (fuel : Nat) (root : SAtom) :
    Except BuildFailure DerivationTree :=
  match toIAtomRO s.id_server root with
  | none => .error .missing
  | some ia =>
    match dfLookup s.derived_from ia with
    | none => .error .missing
    | some ps =>
      match seqChildren (ps.map fun p => s.dt_inner fuel p) with
      | .error e => .error e
      | .ok ts => .ok (.node root ts)

/-- How a call of `Sniffer::find` can come back: a derivation tree, a
`SaturationFailure`, the panic of the `.unwrap()` on a missing tree, or
exhaustion of the recursion bound of this embedding (the Rust loop has no
such bound). -/
inductive FindResult where
  | ok (t : DerivationTree)
  | fail (f : SaturationFailure)
  | panicked
  | outOfFuel

/-- The `while` loop of `Sniffer::find` (lib.rs lines 64-68) plus the
final tree construction: while the target is not a known fact, run one
saturation round, propagating its failure; once present, build the
derivation tree (whose own recursion gets one unit of fuel per
justification entry plus one). -/
def Sniffer.find_loop : Nat → Sniffer → IAtom → SAtom → FindResult × Sniffer
  | 0, s, _, _ => (.outOfFuel, s)
  | fuel + 1, s, ia, sa =>
    if s.axioms.contains ia then
      match s.derivation_tree (s.derived_from.length + 1) sa with
      | .ok t => (.ok t, s)
      | .error .missing => (.panicked, s)
      | .error .outOfFuel => (.outOfFuel, s)
    else
      match s.saturate_result with
      | (s', .ok _) => Sniffer.find_loop fuel s' ia sa
      | (s', .error e) => (.fail e, s')

/-- `Sniffer::find` (lib.rs lines 60-69): intern the target into an
internal atom (mutating the interner), then saturate until it is a known
fact and build its derivation tree. -/
def Sniffer.find (fuel : Nat) (s : Sniffer) (target : SAtom) :
    FindResult × Sniffer :=
  let (ia, ids', _) := internSAtom s.id_server [] target
  Sniffer.find_loop fuel { s with id_server := ids' } ia target

/-- Iterated saturation rounds from a state. -/
def Sniffer.rounds (s : Sniffer) : Nat → Sniffer
  | 0 => s
  | n + 1 => ((s.rounds n).saturate).1

/-! Derived notions used by the statements: groundness and soundness
invariants of the engine state, the soundness predicate on derivation
trees, and concrete states used as test inputs. -/

/-- The substitution is flat: every binding points at an unbound
representative, so one `walk` step fully resolves a term. -/
def Flat (σ : Subst) : Prop :=
  ∀ v w, List.lookup v σ = some (ITerm.var w) → List.lookup w σ = none

/-- `σ'` refines `σ` on ground resolutions: whatever already resolved to a
constant keeps resolving to it. -/
def Refines (σ' σ : Subst) : Prop :=
  ∀ t c, walk σ t = ITerm.const c → walk σ' t = ITerm.const c

/-- The pair `(a, ps)` is one rule application: some rule of the rule set
has, under some substitution, exactly the premises `ps` and the conclusion
`a`. -/
def RuleApplies (rules : List IRule) (a : IAtom) (ps : List IAtom) : Prop :=
  ∃ r ∈ rules, ∃ σ : Subst,
    ps = r.premises.map (applySubst σ) ∧ a = applySubst σ r.conclusion

/-- Every justification entry is either a seed (empty list) or a genuine
rule application. -/
def JustSound (s : Sniffer) : Prop :=
  ∀ a ps, dfLookup s.derived_from a = some ps →
    ps = [] ∨ RuleApplies s.generative_rules a ps

/-- Every fact in the fact set is ground. -/
def FactsGround (s : Sniffer) : Prop :=
  ∀ a ∈ s.axioms, a.isGround = true

/-- Every key of the justification map is ground. -/
def KeysGround (s : Sniffer) : Prop :=
  ∀ a ps, dfLookup s.derived_from a = some ps → a.isGround = true

/-- Every fact in the fact set has a justification entry. -/
def JustComplete (s : Sniffer) : Prop :=
  ∀ a ∈ s.axioms, (dfLookup s.derived_from a).isSome = true

/-- The justification map binds each atom at most once. -/
def KeysNodup (s : Sniffer) : Prop :=
  (s.derived_from.map Prod.fst).Nodup

/-- The shape required of a sound non-leaf node: some rule of the rule
set, instantiated by some substitution and rendered back to surface form,
has exactly the children's atoms as premises and the node's atom as
conclusion. -/
def NodeFromRule (s : Sniffer) (a : SAtom) (kids : List DerivationTree) : Prop :=
  ∃ r ∈ s.generative_rules, ∃ σ : Subst,
    toSAtomsRO s.id_server (r.premises.map (applySubst σ)) =
      some (kids.map DerivationTree.rootAtom) ∧
    toSAtomRO s.id_server (applySubst σ r.conclusion) = some a

/-- Soundness of a derivation tree against an engine state: every node is
a leaf or justified by a rule application. -/
inductive TreeSound (s : Sniffer) : DerivationTree → Prop where
  | leaf (a : SAtom) : TreeSound s (.node a [])
  | node (a : SAtom) (kids : List DerivationTree)
      (hk : ∀ k ∈ kids, TreeSound s k)
      (hr : NodeFromRule s a kids) : TreeSound s (.node a kids)

/-- The names a surface atom mentions: its predicate and its constant
arguments (variables are not interned). -/
def atomNames (a : SAtom) : List String :=
  a.pred :: a.args.filterMap fun t =>
    match t with
    | .const n => some n
    | .var _ => none

/-- Test input: `bird(tweety).` and `bird(X) => flies(X).` -/
def tweetyRecords : List SRule :=
  [ ⟨[], ⟨"bird", [.const "tweety"]⟩⟩,
    ⟨[⟨"bird", [.var "X"]⟩], ⟨"flies", [.var "X"]⟩⟩ ]

/-- Test input: a rule set with a contradiction predicate `bot` that the
seed facts make derivable (`p(c).` and `p(X) => bot(X).`). -/
def bottomRecords : List SRule :=
  [ ⟨[], ⟨"p", [.const "c"]⟩⟩,
    ⟨[⟨"p", [.var "X"]⟩], ⟨"bot", [.var "X"]⟩⟩ ]

/-- The interned form of `bot(c)` under the interner that
`Sniffer.new bottomRecords` builds (`p` is 0, `c` is 1, `bot` is 2). -/
def bottomFact : IAtom := ⟨2, [.const 1]⟩

/-- Test query: `q(c)`, underivable from `bottomRecords`. -/
def qTarget : SAtom := ⟨"q", [.const "c"]⟩

/-- Test query: `flies(polly)`, underivable from `tweetyRecords`. -/
def pollyTarget : SAtom := ⟨"flies", [.const "polly"]⟩

/-- Test state: a justification map with a cycle (`p(c)` justified by
itself), as the spec's cycle-guard discussion considers. -/
def cycSniffer : Sniffer :=
  { axioms := [⟨0, [.const 1]⟩],
    generative_rules := [],
    derived_from := [(⟨0, [.const 1]⟩, [⟨0, [.const 1]⟩])],
    id_server := ⟨["p", "c"]⟩ }

/-- The surface form of the atom that `cycSniffer` justifies by itself. -/
def cycAtom : SAtom := ⟨"p", [.const "c"]⟩

/-! Basic facts about the insertion helpers and the saturation fold. -/

theorem add_derived_rules (s : Sniffer) (a : IAtom) (df : List IAtom) :
    (s.add_derived a df).1.generative_rules = s.generative_rules := by
  simp only [Sniffer.add_derived]
  split <;> rfl

theorem add_derived_ids (s : Sniffer) (a : IAtom) (df : List IAtom) :
    (s.add_derived a df).1.id_server = s.id_server := by
  simp only [Sniffer.add_derived]
  split <;> rfl

theorem add_derived_df (s : Sniffer) (a : IAtom) (df : List IAtom) :
    (s.add_derived a df).1.derived_from = dfOrInsert s.derived_from a df := by
  simp only [Sniffer.add_derived]
  split <;> rfl

theorem mem_add_derived (s : Sniffer) (a : IAtom) (df : List IAtom) (x : IAtom) :
    x ∈ (s.add_derived a df).1.axioms ↔ x ∈ s.axioms ∨ x = a := by
  simp only [Sniffer.add_derived]
  split
  next h =>
    rw [List.elem_iff] at h
    constructor
    · exact fun hx => Or.inl hx
    · rintro (hx | rfl)
      · exact hx
      · exact h
  next h =>
    simp [List.mem_append]

theorem foldl_satStep_rules (L : List IRule) (acc : Sniffer × Bool) :
    (L.foldl satStep acc).1.generative_rules = acc.1.generative_rules := by
  induction L generalizing acc with
  | nil => rfl
  | cons r L ih =>
    rw [List.foldl_cons, ih]
    simp [satStep, add_derived_rules]

theorem foldl_satStep_ids (L : List IRule) (acc : Sniffer × Bool) :
    (L.foldl satStep acc).1.id_server = acc.1.id_server := by
  induction L generalizing acc with
  | nil => rfl
  | cons r L ih =>
    rw [List.foldl_cons, ih]
    simp [satStep, add_derived_ids]

theorem foldl_satStep_mono (L : List IRule) (acc : Sniffer × Bool) (x : IAtom)
    (hx : x ∈ acc.1.axioms) : x ∈ (L.foldl satStep acc).1.axioms := by
  induction L generalizing acc with
  | nil => exact hx
  | cons r L ih =>
    rw [List.foldl_cons]
    exact ih _ ((mem_add_derived _ _ _ _).2 (Or.inl hx))

theorem saturate_rules (s : Sniffer) :
    (s.saturate).1.generative_rules = s.generative_rules :=
  foldl_satStep_rules _ _

theorem saturate_ids (s : Sniffer) :
    (s.saturate).1.id_server = s.id_server :=
  foldl_satStep_ids _ _

theorem saturate_mono (s : Sniffer) (x : IAtom) (hx : x ∈ s.axioms) :
    x ∈ (s.saturate).1.axioms :=
  foldl_satStep_mono _ _ _ hx

theorem find_loop_mono (fuel : Nat) (s : Sniffer) (ia : IAtom) (sa : SAtom)
    (x : IAtom) (hx : x ∈ s.axioms) :
    x ∈ (Sniffer.find_loop fuel s ia sa).2.axioms := by
  induction fuel generalizing s with
  | zero => exact hx
  | succ fuel ih =>
    rw [Sniffer.find_loop]
    split
    · split <;> exact hx
    · rcases hsat : s.saturate_result with ⟨s', e⟩
      have hs' : s' = (s.saturate).1 := by
        simp only [Sniffer.saturate_result] at hsat
        exact (congrArg Prod.fst hsat).symm ▸ rfl
      cases e with
      | ok u => exact ih s' (hs' ▸ saturate_mono s x hx)
      | error e => exact hs' ▸ saturate_mono s x hx

/-- C3: the fact set after round n+1 is a superset of the fact set after
round n, and no engine operation (derived insertion, seed insertion, a
saturation round, a whole query) ever removes an atom from the fact
set. -/
theorem C3_fact_set_monotone :
    (∀ s : Sniffer, ∀ n : Nat, ∀ a : IAtom,
        a ∈ (s.rounds n).axioms → a ∈ (s.rounds (n + 1)).axioms) ∧
    (∀ s : Sniffer, ∀ a df x, x ∈ s.axioms → x ∈ (s.add_derived a df).1.axioms) ∧
    (∀ s : Sniffer, ∀ a x, x ∈ s.axioms → x ∈ (s.add_seed a).1.axioms) ∧
    (∀ fuel : Nat, ∀ s : Sniffer, ∀ t : SAtom, ∀ x,
        x ∈ s.axioms → x ∈ (Sniffer.find fuel s t).2.axioms) := by
  refine ⟨fun s n a ha => ?_, fun s a df x hx => ?_, fun s a x hx => ?_,
    fun fuel s t x hx => ?_⟩
  · exact saturate_mono _ _ ha
  · exact (mem_add_derived _ _ _ _).2 (Or.inl hx)
  · simp only [Sniffer.add_seed]
    split
    · exact hx
    · simp [List.mem_append, hx]
  · exact find_loop_mono _ _ _ _ _ hx

/-- C3 witness: the monotonicity theorem applied to a concrete state and
round, the membership hypothesis evaluated. -/
theorem C3_fact_set_monotone_witness :
    bottomFact ∈ ((Sniffer.new bottomRecords).rounds 2).axioms :=
  C3_fact_set_monotone.1 (Sniffer.new bottomRecords) 1 bottomFact (by decide)

/-! Saturation never reports `DerivedBottom`, and a round that inserts
nothing makes the query fail with `Saturated`. -/

theorem saturate_result_state (s : Sniffer) :
    (s.saturate_result).1 = (s.saturate).1 := by
  rcases h : s.saturate with ⟨s', m⟩
  simp [Sniffer.saturate_result, h]

theorem saturate_result_error (s : Sniffer) (e : SaturationFailure)
    (h : (s.saturate_result).2 = .error e) : e = SaturationFailure.Saturated := by
  rcases hs : s.saturate with ⟨s', m⟩
  simp only [Sniffer.saturate_result, hs] at h
  cases m with
  | true => simp at h
  | false =>
    simp at h
    exact h.symm

theorem find_loop_no_bottom (fuel : Nat) (s : Sniffer) (ia : IAtom) (sa : SAtom) :
    (Sniffer.find_loop fuel s ia sa).1 ≠
      FindResult.fail SaturationFailure.DerivedBottom := by
  induction fuel generalizing s with
  | zero => simp [Sniffer.find_loop]
  | succ fuel ih =>
    rw [Sniffer.find_loop]
    split
    · split <;> simp
    · rcases hsat : s.saturate_result with ⟨s', e⟩
      cases e with
      | ok u => exact ih s'
      | error f =>
        have hf : f = SaturationFailure.Saturated :=
          saturate_result_error s f (by rw [hsat])
        subst hf
        simp

/-- C8 counterexample: a rule set whose contradiction predicate `bot` is
derived during saturation (the derived `bot(c)` sits in the final fact
set), yet the query keeps saturating and returns `Saturated`, not
`DerivedBottom`. -/
theorem C8_counterexample :
    (Sniffer.find 5 (Sniffer.new bottomRecords) qTarget).1 =
        FindResult.fail SaturationFailure.Saturated ∧
      bottomFact ∈ (Sniffer.find 5 (Sniffer.new bottomRecords) qTarget).2.axioms :=
  ⟨by rfl, by decide⟩

/-- C8 as amended: the engine never reports `DerivedBottom` -- the variant
is declared (lib.rs line 207) but never produced; deriving a contradiction
predicate does not halt saturation. -/
theorem C8_no_derived_bottom (fuel : Nat) (s : Sniffer) (t : SAtom) :
    (Sniffer.find fuel s t).1 ≠
      FindResult.fail SaturationFailure.DerivedBottom := by
  rcases h : internSAtom s.id_server [] t with ⟨ia, ids', vs⟩
  simp only [Sniffer.find, h]
  exact find_loop_no_bottom _ _ _ _

theorem add_derived_set_ids (s : Sniffer) (x : IdentifierServer)
    (a : IAtom) (df : List IAtom) :
    ({ s with id_server := x } : Sniffer).add_derived a df =
      ({ (s.add_derived a df).1 with id_server := x }, (s.add_derived a df).2) := by
  simp only [Sniffer.add_derived]
  split <;> rfl

theorem foldl_satStep_set_ids (L : List IRule) (s : Sniffer) (b : Bool)
    (x : IdentifierServer) :
    L.foldl satStep ({ s with id_server := x }, b) =
      ({ (L.foldl satStep (s, b)).1 with id_server := x },
        (L.foldl satStep (s, b)).2) := by
  induction L generalizing s b with
  | nil => rfl
  | cons r L ih =>
    rw [List.foldl_cons, List.foldl_cons]
    have h1 : satStep ({ s with id_server := x }, b) r =
        ({ (satStep (s, b) r).1 with id_server := x }, (satStep (s, b) r).2) := by
      simp only [satStep, add_derived_set_ids]
    rw [h1]
    rcases h2 : satStep (s, b) r with ⟨s2, b2⟩
    exact ih s2 b2

theorem saturate_set_ids (s : Sniffer) (x : IdentifierServer) :
    ({ s with id_server := x } : Sniffer).saturate =
      ({ (s.saturate).1 with id_server := x }, (s.saturate).2) := by
  have hd : ({ s with id_server := x } : Sniffer).saturate_derived =
      s.saturate_derived := rfl
  simp only [Sniffer.saturate, hd]
  exact foldl_satStep_set_ids _ s false x

/-- C2: if the target is not a known fact and the saturation round inserts
zero new facts, the query returns the `Saturated` failure at once --
whatever fuel the loop is given, so the loop neither diverges nor
crashes. -/
theorem C2_saturated_on_no_progress (fuel : Nat) (s : Sniffer) (target : SAtom)
    (hmem : (internSAtom s.id_server [] target).1 ∉ s.axioms)
    (hnp : (s.saturate).2 = false) :
    (Sniffer.find (fuel + 1) s target).1 =
      FindResult.fail SaturationFailure.Saturated := by
  rcases h : internSAtom s.id_server [] target with ⟨ia, ids', vs⟩
  simp only [Sniffer.find, h]
  rw [Sniffer.find_loop]
  have hc : ia ∉ s.axioms := by
    rw [h] at hmem
    exact hmem
  rw [if_neg (by simpa [List.elem_iff] using hc)]
  have hres : ({ s with id_server := ids' } : Sniffer).saturate_result =
      (({ (s.saturate).1 with id_server := ids' }),
        Except.error SaturationFailure.Saturated) := by
    simp only [Sniffer.saturate_result, saturate_set_ids, hnp]
    rfl
  rw [hres]

/-- C2 witness: the theorem applied to a saturated concrete engine and an
absent target, both hypotheses evaluated. -/
theorem C2_saturated_on_no_progress_witness :
    (Sniffer.find 3 ((Sniffer.new tweetyRecords).rounds 1) pollyTarget).1 =
      FindResult.fail SaturationFailure.Saturated :=
  C2_saturated_on_no_progress 2 ((Sniffer.new tweetyRecords).rounds 1) pollyTarget
    (by decide) (by decide)

/-! The interner only grows, and a query interns its target up front. -/

theorem lookupName_get (n : String) (l : List String) (i : Nat)
    (h : lookupName n l = some i) : l.get? i = some n := by
  induction l generalizing i with
  | nil => simp [lookupName] at h
  | cons m ms ih =>
    simp only [lookupName] at h
    split at h
    next heq =>
      cases h
      simp [heq]
    next hne =>
      rcases ho : lookupName n ms with _ | j
      · rw [ho] at h
        simp at h
      · rw [ho] at h
        simp only [Option.map_some'] at h
        cases h
        simpa using ih j ho

theorem lookupName_mem (n : String) (l : List String) (i : Nat)
    (h : lookupName n l = some i) : n ∈ l :=
  List.get?_mem (lookupName_get n l i h)

theorem intern_mem (ids : IdentifierServer) (n : String) :
    n ∈ ((ids.intern n).2).names := by
  cases h : lookupName n ids.names with
  | none => simp [IdentifierServer.intern, h]
  | some i =>
    simp only [IdentifierServer.intern, h]
    exact lookupName_mem n ids.names i h

theorem intern_mono (ids : IdentifierServer) (n m : String)
    (hm : m ∈ ids.names) : m ∈ ((ids.intern n).2).names := by
  cases h : lookupName n ids.names with
  | none => simp [IdentifierServer.intern, h, List.mem_append, hm]
  | some i => simpa [IdentifierServer.intern, h] using hm

theorem internTerms_mono (ts : List STerm) (ids : IdentifierServer)
    (vars : List String) (m : String) (hm : m ∈ ids.names) :
    m ∈ ((internTerms ids vars ts).2.1).names := by
  induction ts generalizing ids vars with
  | nil => exact hm
  | cons t ts ih =>
    cases t with
    | const n =>
      rcases h : ids.intern n with ⟨i, ids'⟩
      have hm' : m ∈ ids'.names := by
        have := intern_mono ids n m hm
        rw [h] at this
        exact this
      simp only [internTerms, h]
      rcases h2 : internTerms ids' vars ts with ⟨rest, ids'', vars'⟩
      have := ih ids' vars hm'
      rw [h2] at this
      simpa [h2] using this
    | var n =>
      cases h : lookupName n vars with
      | some v =>
        simp only [internTerms, h]
        rcases h2 : internTerms ids vars ts with ⟨rest, ids', vars'⟩
        have := ih ids vars hm
        rw [h2] at this
        simpa using this
      | none =>
        simp only [internTerms, h]
        rcases h2 : internTerms ids (vars ++ [n]) ts with ⟨rest, ids', vars'⟩
        have := ih ids (vars ++ [n]) hm
        rw [h2] at this
        simpa using this

theorem internTerms_const_mem (ts : List STerm) (ids : IdentifierServer)
    (vars : List String) (n : String) (hn : STerm.const n ∈ ts) :
    n ∈ ((internTerms ids vars ts).2.1).names := by
  induction ts generalizing ids vars with
  | nil => simp at hn
  | cons t ts ih =>
    rcases List.mem_cons.1 hn with h | h
    · subst h
      rcases hI : ids.intern n with ⟨i, ids'⟩
      have hm : n ∈ ids'.names := by
        have := intern_mem ids n
        rw [hI] at this
        exact this
      simp only [internTerms, hI]
      rcases h2 : internTerms ids' vars ts with ⟨rest, ids'', vars'⟩
      have := internTerms_mono ts ids' vars n hm
      rw [h2] at this
      simpa using this
    · cases t with
      | const m =>
        rcases hI : ids.intern m with ⟨i, ids'⟩
        simp only [internTerms, hI]
        rcases h2 : internTerms ids' vars ts with ⟨rest, ids'', vars'⟩
        have := ih ids' vars h
        rw [h2] at this
        simpa using this
      | var m =>
        cases hv : lookupName m vars with
        | some v =>
          simp only [internTerms, hv]
          rcases h2 : internTerms ids vars ts with ⟨rest, ids', vars'⟩
          have := ih ids vars h
          rw [h2] at this
          simpa using this
        | none =>
          simp only [internTerms, hv]
          rcases h2 : internTerms ids (vars ++ [m]) ts with ⟨rest, ids', vars'⟩
          have := ih ids (vars ++ [m]) h
          rw [h2] at this
          simpa using this

theorem internSAtom_names (ids : IdentifierServer) (vars : List String)
    (a : SAtom) (n : String) (hn : n ∈ atomNames a) :
    n ∈ ((internSAtom ids vars a).2.1).names := by
  rcases hI : ids.intern a.pred with ⟨p, ids'⟩
  rcases hT : internTerms ids' vars a.args with ⟨ts, ids'', vars'⟩
  have hres : (internSAtom ids vars a).2.1 = ids'' := by
    simp [internSAtom, hI, hT]
  rw [hres]
  rcases List.mem_cons.1 hn with h | h
  · subst h
    have hm : a.pred ∈ ids'.names := by
      have := intern_mem ids a.pred
      rw [hI] at this
      exact this
    have := internTerms_mono a.args ids' vars a.pred hm
    rw [hT] at this
    exact this
  · rcases List.mem_filterMap.1 h with ⟨t, ht, hmap⟩
    cases t with
    | const m =>
      simp at hmap
      subst hmap
      have := internTerms_const_mem a.args ids' vars m ht
      rw [hT] at this
      exact this
    | var m => simp at hmap

theorem find_loop_ids (fuel : Nat) (s : Sniffer) (ia : IAtom) (sa : SAtom) :
    (Sniffer.find_loop fuel s ia sa).2.id_server = s.id_server := by
  induction fuel generalizing s with
  | zero => rfl
  | succ fuel ih =>
    rw [Sniffer.find_loop]
    split
    · split <;> rfl
    · rcases hsat : s.saturate_result with ⟨s', e⟩
      have hs' : s'.id_server = s.id_server := by
        have h1 : (s.saturate_result).1 = s' := by rw [hsat]
        rw [saturate_result_state] at h1
        rw [← h1, saturate_ids]
      cases e with
      | ok u => rw [ih s', hs']
      | error f => exact hs'

/-- C10: a query interns its target before saturating -- the state after
`find` carries exactly the interner obtained by interning the target into
the pre-query interner, whatever the outcome (including `Saturated`), and
every predicate or constant name of the target is in it. -/
theorem C10_target_interned (fuel : Nat) (s : Sniffer) (target : SAtom) :
    (Sniffer.find fuel s target).2.id_server =
        (internSAtom s.id_server [] target).2.1 ∧
      ∀ n ∈ atomNames target,
        n ∈ ((Sniffer.find fuel s target).2.id_server).names := by
  rcases h : internSAtom s.id_server [] target with ⟨ia, ids', vs⟩
  simp only [Sniffer.find, h]
  constructor
  · exact find_loop_ids _ _ _ _
  · intro n hn
    rw [find_loop_ids]
    have := internSAtom_names s.id_server [] target n hn
    rw [h] at this
    exact this

/-- C10 witness: after the failing query `flies(polly)`, the name `polly`
is in the engine's interner. -/
theorem C10_target_interned_witness :
    "polly" ∈ ((Sniffer.find 3 (Sniffer.new tweetyRecords) pollyTarget).2.id_server).names :=
  (C10_target_interned 3 (Sniffer.new tweetyRecords) pollyTarget).2 "polly" (by decide)

/-! The load split: empty-premise records seed the fact set, the rest
populate the rule set. -/

theorem dfLookup_map_replace (m : List (IAtom × List IAtom)) (a : IAtom)
    (ps : List IAtom) (h : (dfLookup m a).isSome) :
    dfLookup (m.map fun p => if p.1 = a then (a, ps) else p) a = some ps := by
  induction m with
  | nil => simp [dfLookup] at h
  | cons q m ih =>
    rcases q with ⟨b, qs⟩
    by_cases hq : b = a
    · subst hq
      rw [List.map_cons]
      have hmap : (if (b, qs).1 = b then (b, ps) else (b, qs)) = (b, ps) := by simp
      rw [hmap]
      simp [dfLookup]
    · simp only [dfLookup, if_neg hq] at h
      rw [List.map_cons]
      have hmap : (if (b, qs).1 = a then (a, ps) else (b, qs)) = (b, qs) := by
        simp [hq]
      rw [hmap]
      simp only [dfLookup, if_neg hq]
      exact ih h

theorem dfInsert_lookup_self (m : List (IAtom × List IAtom)) (a : IAtom)
    (ps : List IAtom) : dfLookup (dfInsert m a ps) a = some ps := by
  cases h : dfLookup m a with
  | none => simp [dfInsert, h, dfLookup]
  | some qs =>
    simp only [dfInsert, h]
    exact dfLookup_map_replace m a ps (by simp [h])

theorem internAtoms_length (l : List SAtom) (ids : IdentifierServer)
    (vars : List String) : (internAtoms ids vars l).1.length = l.length := by
  induction l generalizing ids vars with
  | nil => rfl
  | cons a l ih =>
    rcases h1 : internSAtom ids vars a with ⟨ia, ids', vars'⟩
    simp only [internAtoms, h1]
    rcases h2 : internAtoms ids' vars' l with ⟨irest, ids'', vars''⟩
    have := ih ids' vars'
    rw [h2] at this
    simpa using this

theorem internSRule_premises_length (ids : IdentifierServer) (r : SRule) :
    ((internSRule ids r).1).premises.length = r.premises.length := by
  rcases h1 : internAtoms ids [] r.premises with ⟨ps, ids', vars'⟩
  rcases h2 : internSAtom ids' vars' r.conclusion with ⟨c, ids'', vars''⟩
  simp only [internSRule, h1, h2]
  have := internAtoms_length r.premises ids []
  rw [h1] at this
  exact this

theorem new_rules_premises_ne (records : List SRule) :
    ∀ ir ∈ (Sniffer.new records).generative_rules, ir.premises ≠ [] := by
  suffices h : ∀ (L : List SRule) (s : Sniffer),
      (∀ ir ∈ s.generative_rules, ir.premises ≠ []) →
      ∀ ir ∈ (L.foldl Sniffer.load_rule s).generative_rules, ir.premises ≠ [] by
    exact h records Sniffer.empty (by simp [Sniffer.empty])
  intro L
  induction L with
  | nil => intro s hs; exact hs
  | cons r L ih =>
    intro s hs
    rw [List.foldl_cons]
    apply ih
    intro ir hir
    by_cases hr : r.premises = []
    · simp only [Sniffer.load_rule, if_pos hr] at hir
      rcases h1 : internSAtom s.id_server [] r.conclusion with ⟨ia, ids', vs⟩
      rw [h1] at hir
      simp only [Sniffer.add_seed] at hir
      split at hir <;> exact hs ir hir
    · simp only [Sniffer.load_rule, if_neg hr] at hir
      rcases h1 : internSRule s.id_server r with ⟨irule, ids'⟩
      rw [h1] at hir
      simp only at hir
      split at hir
      · exact hs ir hir
      · rcases List.mem_append.1 hir with h | h
        · exact hs ir h
        · have hlen := internSRule_premises_length s.id_server r
          rw [h1] at hlen
          simp at h
          subst h
          intro hcon
          rw [hcon] at hlen
          simp at hlen
          exact hr (List.eq_nil_of_length_eq_zero hlen.symm)

/-- C6: at load time an empty-premise record seeds the fact set -- its
interned conclusion enters the fact set with an empty justification entry
and the rule set is untouched -- while a record with premises goes to the
rule set and leaves the fact set and justification map untouched; hence
every rule in a constructed engine's rule set has premises. -/
theorem C6_load_split :
    (∀ (s : Sniffer) (r : SRule), r.premises = [] →
        (internSAtom s.id_server [] r.conclusion).1 ∈ (s.load_rule r).axioms ∧
        (s.load_rule r).generative_rules = s.generative_rules ∧
        dfLookup (s.load_rule r).derived_from
            (internSAtom s.id_server [] r.conclusion).1 = some []) ∧
    (∀ (s : Sniffer) (r : SRule), r.premises ≠ [] →
        (s.load_rule r).axioms = s.axioms ∧
        (s.load_rule r).derived_from = s.derived_from ∧
        (internSRule s.id_server r).1 ∈ (s.load_rule r).generative_rules) ∧
    (∀ records : List SRule,
        ∀ ir ∈ (Sniffer.new records).generative_rules, ir.premises ≠ []) := by
  refine ⟨fun s r hr => ?_, fun s r hr => ?_, new_rules_premises_ne⟩
  · rcases h1 : internSAtom s.id_server [] r.conclusion with ⟨ia, ids', vs⟩
    simp only [Sniffer.load_rule, if_pos hr, h1]
    simp only [Sniffer.add_seed]
    refine ⟨?_, ?_, ?_⟩
    · split
      next hc => exact List.elem_iff.1 hc
      next hc => simp
    · split <;> rfl
    · split <;> exact dfInsert_lookup_self _ _ _
  · rcases h1 : internSRule s.id_server r with ⟨irule, ids'⟩
    simp only [Sniffer.load_rule, if_neg hr, h1]
    refine ⟨by trivial, by trivial, ?_⟩
    split
    next hc => exact List.elem_iff.1 hc
    next hc => simp

/-- C6 witness: the empty-premise record of `tweetyRecords` seeds the fact
set of the engine built from it. -/
theorem C6_load_split_witness :
    (internSAtom Sniffer.empty.id_server []
        (⟨"bird", [.const "tweety"]⟩ : SAtom)).1 ∈
      (Sniffer.empty.load_rule ⟨[], ⟨"bird", [.const "tweety"]⟩⟩).axioms :=
  (C6_load_split.1 Sniffer.empty ⟨[], ⟨"bird", [.const "tweety"]⟩⟩ (by decide)).1

/-! Completeness of the justification map: no fact without an entry, one
entry per atom, first entry kept. -/

theorem dfLookup_orInsert_preserve (m : List (IAtom × List IAtom))
    (b : IAtom) (ps : List IAtom) (a : IAtom) (qs : List IAtom)
    (h : dfLookup m a = some qs) : dfLookup (dfOrInsert m b ps) a = some qs := by
  cases hb : dfLookup m b with
  | some _ => simpa [dfOrInsert, hb] using h
  | none =>
    have hne : b ≠ a := fun he => by rw [he, h] at hb; cases hb
    simp [dfOrInsert, hb, dfLookup, hne, h]

theorem dfLookup_orInsert_self_isSome (m : List (IAtom × List IAtom))
    (a : IAtom) (ps : List IAtom) :
    (dfLookup (dfOrInsert m a ps) a).isSome = true := by
  cases h : dfLookup m a with
  | some _ => simp [dfOrInsert, h]
  | none => simp [dfOrInsert, h, dfLookup]

theorem dfLookup_map_replace_other (m : List (IAtom × List IAtom))
    (a : IAtom) (ps : List IAtom) (b : IAtom) (hne : b ≠ a) :
    dfLookup (m.map fun p => if p.1 = a then (a, ps) else p) b = dfLookup m b := by
  induction m with
  | nil => rfl
  | cons q m ih =>
    rcases q with ⟨c, cs⟩
    rw [List.map_cons]
    by_cases hc : c = a
    · subst hc
      have h1 : (if (c, cs).1 = c then (c, ps) else (c, cs)) = (c, ps) := by simp
      rw [h1]
      simp only [dfLookup]
      rw [if_neg (fun he : c = b => hne he.symm),
        if_neg (fun he : c = b => hne he.symm)]
      exact ih
    · have h1 : (if (c, cs).1 = a then (a, ps) else (c, cs)) = (c, cs) := by
        simp [hc]
      rw [h1]
      simp only [dfLookup]
      by_cases hcb : c = b
      · rw [if_pos hcb, if_pos hcb]
      · rw [if_neg hcb, if_neg hcb]
        exact ih

theorem dfLookup_dfInsert_other (m : List (IAtom × List IAtom))
    (a : IAtom) (ps : List IAtom) (b : IAtom) (hne : b ≠ a) :
    dfLookup (dfInsert m a ps) b = dfLookup m b := by
  cases h : dfLookup m a with
  | none =>
    simp only [dfInsert, h, dfLookup]
    rw [if_neg (fun he : a = b => hne he.symm)]
  | some qs =>
    simp only [dfInsert, h]
    exact dfLookup_map_replace_other m a ps b hne

theorem dfLookup_none_not_key (m : List (IAtom × List IAtom)) (a : IAtom)
    (h : dfLookup m a = none) : a ∉ m.map Prod.fst := by
  induction m with
  | nil => simp
  | cons q m ih =>
    rcases q with ⟨b, ps⟩
    simp only [dfLookup] at h
    split at h
    next => cases h
    next hb =>
      simp only [List.map_cons, List.mem_cons]
      rintro (he | he)
      · exact hb he.symm
      · exact ih h he

theorem keys_map_replace (m : List (IAtom × List IAtom)) (a : IAtom)
    (ps : List IAtom) :
    ((m.map fun p => if p.1 = a then (a, ps) else p).map Prod.fst) =
      m.map Prod.fst := by
  induction m with
  | nil => rfl
  | cons q m ih =>
    rcases q with ⟨b, qs⟩
    rw [List.map_cons, List.map_cons, List.map_cons]
    by_cases hb : b = a
    · subst hb
      have h1 : (if (b, qs).1 = b then (b, ps) else (b, qs)) = (b, ps) := by simp
      rw [h1, ih]
    · have h1 : (if (b, qs).1 = a then (a, ps) else (b, qs)) = (b, qs) := by
        simp [hb]
      rw [h1, ih]

theorem dfInsert_keys_nodup (m : List (IAtom × List IAtom)) (a : IAtom)
    (ps : List IAtom) (h : (m.map Prod.fst).Nodup) :
    ((dfInsert m a ps).map Prod.fst).Nodup := by
  cases hl : dfLookup m a with
  | some qs =>
    simp only [dfInsert, hl]
    rw [keys_map_replace m a ps]
    exact h
  | none =>
    simp only [dfInsert, hl, List.map_cons]
    exact List.Nodup.cons (dfLookup_none_not_key m a hl) h

theorem dfOrInsert_keys_nodup (m : List (IAtom × List IAtom)) (a : IAtom)
    (ps : List IAtom) (h : (m.map Prod.fst).Nodup) :
    ((dfOrInsert m a ps).map Prod.fst).Nodup := by
  cases hl : dfLookup m a with
  | some qs => simpa [dfOrInsert, hl] using h
  | none =>
    simp only [dfOrInsert, hl, List.map_cons]
    exact List.Nodup.cons (dfLookup_none_not_key m a hl) h

theorem add_derived_just_complete (s : Sniffer) (a : IAtom) (df : List IAtom)
    (h : JustComplete s) : JustComplete (s.add_derived a df).1 := by
  intro x hx
  rw [add_derived_df]
  rcases (mem_add_derived s a df x).1 hx with hx' | rfl
  · rcases Option.isSome_iff_exists.1 (h x hx') with ⟨qs, hqs⟩
    rw [dfLookup_orInsert_preserve s.derived_from a df x qs hqs]
    rfl
  · exact dfLookup_orInsert_self_isSome _ _ _

theorem foldl_satStep_just_complete (L : List IRule) (acc : Sniffer × Bool)
    (h : JustComplete acc.1) : JustComplete (L.foldl satStep acc).1 := by
  induction L generalizing acc with
  | nil => exact h
  | cons r L ih =>
    rw [List.foldl_cons]
    exact ih _ (add_derived_just_complete _ _ _ h)

theorem saturate_just_complete (s : Sniffer) (h : JustComplete s) :
    JustComplete (s.saturate).1 :=
  foldl_satStep_just_complete _ _ h

theorem add_derived_keys_nodup (s : Sniffer) (a : IAtom) (df : List IAtom)
    (h : KeysNodup s) : KeysNodup (s.add_derived a df).1 := by
  unfold KeysNodup
  rw [add_derived_df]
  exact dfOrInsert_keys_nodup _ _ _ h

theorem foldl_satStep_keys_nodup (L : List IRule) (acc : Sniffer × Bool)
    (h : KeysNodup acc.1) : KeysNodup (L.foldl satStep acc).1 := by
  induction L generalizing acc with
  | nil => exact h
  | cons r L ih =>
    rw [List.foldl_cons]
    exact ih _ (add_derived_keys_nodup _ _ _ h)

theorem load_rule_seed_entries (s : Sniffer) (r : SRule)
    (h : ∀ a ∈ s.axioms, dfLookup s.derived_from a = some []) :
    ∀ a ∈ (s.load_rule r).axioms,
      dfLookup (s.load_rule r).derived_from a = some [] := by
  by_cases hr : r.premises = []
  · rcases h1 : internSAtom s.id_server [] r.conclusion with ⟨ia, ids', vs⟩
    simp only [Sniffer.load_rule, if_pos hr, h1, Sniffer.add_seed]
    intro x hx
    by_cases hxa : x = ia
    · subst hxa
      split <;> exact dfInsert_lookup_self _ _ _
    · have hxs : x ∈ s.axioms := by
        split at hx
        · exact hx
        · rcases List.mem_append.1 hx with h' | h'
          · exact h'
          · simp at h'
            exact absurd h' hxa
      have := h x hxs
      split <;> rw [dfLookup_dfInsert_other _ _ _ _ hxa] <;> exact this
  · rcases h1 : internSRule s.id_server r with ⟨irule, ids'⟩
    simp only [Sniffer.load_rule, if_neg hr, h1]
    exact h

theorem load_rule_keys_nodup (s : Sniffer) (r : SRule) (h : KeysNodup s) :
    KeysNodup (s.load_rule r) := by
  by_cases hr : r.premises = []
  · rcases h1 : internSAtom s.id_server [] r.conclusion with ⟨ia, ids', vs⟩
    simp only [Sniffer.load_rule, if_pos hr, h1, Sniffer.add_seed]
    unfold KeysNodup at h ⊢
    split <;> exact dfInsert_keys_nodup _ _ _ h
  · rcases h1 : internSRule s.id_server r with ⟨irule, ids'⟩
    simp only [Sniffer.load_rule, if_neg hr, h1]
    exact h

theorem new_seed_entries (records : List SRule) :
    ∀ a ∈ (Sniffer.new records).axioms,
      dfLookup (Sniffer.new records).derived_from a = some [] := by
  suffices h : ∀ (L : List SRule) (s : Sniffer),
      (∀ a ∈ s.axioms, dfLookup s.derived_from a = some []) →
      ∀ a ∈ (L.foldl Sniffer.load_rule s).axioms,
        dfLookup (L.foldl Sniffer.load_rule s).derived_from a = some [] by
    exact h records Sniffer.empty (by simp [Sniffer.empty])
  intro L
  induction L with
  | nil => intro s hs; exact hs
  | cons r L ih =>
    intro s hs
    rw [List.foldl_cons]
    exact ih _ (load_rule_seed_entries s r hs)

theorem new_keys_nodup (records : List SRule) : KeysNodup (Sniffer.new records) := by
  suffices h : ∀ (L : List SRule) (s : Sniffer),
      KeysNodup s → KeysNodup (L.foldl Sniffer.load_rule s) by
    exact h records Sniffer.empty (by simp [KeysNodup, Sniffer.empty])
  intro L
  induction L with
  | nil => intro s hs; exact hs
  | cons r L ih =>
    intro s hs
    rw [List.foldl_cons]
    exact ih _ (load_rule_keys_nodup s r hs)

theorem rounds_just_complete (s : Sniffer) (h : JustComplete s) (n : Nat) :
    JustComplete (s.rounds n) := by
  induction n with
  | zero => exact h
  | succ n ih => exact saturate_just_complete _ ih

theorem rounds_keys_nodup (s : Sniffer) (h : KeysNodup s) (n : Nat) :
    KeysNodup (s.rounds n) := by
  induction n with
  | zero => exact h
  | succ n ih => exact foldl_satStep_keys_nodup _ _ ih

/-- C4: after construction every fact maps to the empty justification
(seed axioms are proof-tree leaves); after every saturation round every
fact in the fact set still has a justification entry; the map binds every
atom at most once; and an existing entry is never overwritten (the first
derivation recorded is kept). -/
theorem C4_justification_invariant :
    (∀ records : List SRule, ∀ a ∈ (Sniffer.new records).axioms,
        dfLookup (Sniffer.new records).derived_from a = some []) ∧
    (∀ (records : List SRule) (n : Nat),
        JustComplete ((Sniffer.new records).rounds n)) ∧
    (∀ (records : List SRule) (n : Nat),
        KeysNodup ((Sniffer.new records).rounds n)) ∧
    (∀ (s : Sniffer) (b : IAtom) (df : List IAtom) (a : IAtom) (qs : List IAtom),
        dfLookup s.derived_from a = some qs →
        dfLookup ((s.add_derived b df).1).derived_from a = some qs) := by
  refine ⟨new_seed_entries, fun records n => ?_, fun records n => ?_,
    fun s b df a qs h => ?_⟩
  · refine rounds_just_complete _ (fun a ha => ?_) n
    rw [new_seed_entries records a ha]
    rfl
  · exact rounds_keys_nodup _ (new_keys_nodup records) n
  · rw [add_derived_df]
    exact dfLookup_orInsert_preserve _ _ _ _ _ h

/-- C4 witness: the seed fact `bird(tweety)` of the concrete engine maps
to the empty justification entry. -/
theorem C4_justification_invariant_witness :
    dfLookup (Sniffer.new tweetyRecords).derived_from ⟨0, [.const 1]⟩ = some [] :=
  C4_justification_invariant.1 tweetyRecords ⟨0, [.const 1]⟩ (by decide)

/-! The derivation-tree builder: a missing entry yields nothing, and a
cyclic justification map makes the recursion run forever (no in-flight
cycle detection exists in the code). -/

theorem dt_inner_cyc (fuel : Nat) :
    cycSniffer.dt_inner fuel ⟨0, [.const 1]⟩ = .error .outOfFuel := by
  induction fuel with
  | zero => rfl
  | succ fuel ih =>
    have h0 : cycSniffer.dt_inner (fuel + 1) ⟨0, [.const 1]⟩ =
        match seqChildren
            (([⟨0, [.const 1]⟩] : List IAtom).map
              fun p => cycSniffer.dt_inner fuel p) with
        | .error e => .error e
        | .ok ts => .ok (.node ⟨"p", [.const "c"]⟩ ts) := rfl
    rw [h0, List.map_cons, List.map_nil, ih]
    rfl

/-- C9 counterexample: on a justification map where `p(c)` justifies
itself, the builder does not fail fast -- given recursion budget 50 (far
beyond one visit per entry of the one-entry map) it is still recursing,
instead of detecting the repeated in-flight atom. -/
theorem C9_counterexample :
    cycSniffer.derivation_tree 50 cycAtom = .error .outOfFuel := by
  have h0 : cycSniffer.derivation_tree 50 cycAtom =
      match seqChildren
          (([⟨0, [.const 1]⟩] : List IAtom).map
            fun p => cycSniffer.dt_inner 49 p) with
      | .error e => .error e
      | .ok ts => .ok (.node cycAtom ts) := rfl
  rw [h0, List.map_cons, List.map_nil, dt_inner_cyc 49]
  rfl

/-- C9 as amended: the builder on an atom with no justification entry
returns nothing; but it performs no cycle detection -- on the cyclic map of
`cycSniffer` it exhausts every recursion budget instead of failing
fast. -/
theorem C9_builder_no_guard :
    (∀ (s : Sniffer) (fuel : Nat) (root : SAtom) (ia : IAtom),
        toIAtomRO s.id_server root = some ia →
        dfLookup s.derived_from ia = none →
        s.derivation_tree fuel root = .error .missing) ∧
    (∀ fuel : Nat, cycSniffer.derivation_tree fuel cycAtom = .error .outOfFuel) := by
  constructor
  · intro s fuel root ia h1 h2
    simp [Sniffer.derivation_tree, h1, h2]
  · intro fuel
    have h0 : cycSniffer.derivation_tree fuel cycAtom =
        match seqChildren
            (([⟨0, [.const 1]⟩] : List IAtom).map
              fun p => cycSniffer.dt_inner fuel p) with
        | .error e => .error e
        | .ok ts => .ok (.node cycAtom ts) := rfl
    rw [h0, List.map_cons, List.map_nil, dt_inner_cyc fuel]
    rfl

/-- C9 witness: against the freshly built tweety engine, the never-derived
atom `flies(tweety)` has no justification entry and building its tree
returns nothing. -/
theorem C9_builder_no_guard_witness :
    (Sniffer.new tweetyRecords).derivation_tree 3 ⟨"flies", [.const "tweety"]⟩ =
      .error .missing :=
  C9_builder_no_guard.1 (Sniffer.new tweetyRecords) 3 ⟨"flies", [.const "tweety"]⟩
    ⟨2, [.const 1]⟩ (by rfl) (by rfl)

/-! The unifier: flat substitutions are preserved, refinements keep ground
resolutions, and a successful `assign` really instantiates its rule. -/

theorem flat_nil : Flat [] := by
  intro v w h
  cases h

theorem lookup_map_value (l : Subst) (f : ITerm → ITerm) (v : Nat) :
    List.lookup v (l.map fun p => (p.1, f p.2)) = (List.lookup v l).map f := by
  induction l with
  | nil => rfl
  | cons q l ih =>
    rcases q with ⟨x, t⟩
    rw [List.map_cons]
    by_cases h : v = x
    · subst h
      simp [List.lookup]
    · have hb : (v == x) = false := by simpa using h
      simp [List.lookup, hb, ih]

theorem lookup_bindVar (σ : Subst) (x : Nat) (u : ITerm) (v : Nat) :
    List.lookup v (bindVar σ x u) =
      if v = x then some u
      else (List.lookup v σ).map fun t => if t = ITerm.var x then u else t := by
  unfold bindVar
  by_cases h : v = x
  · subst h
    simp [List.lookup]
  · have hb : (v == x) = false := by simpa using h
    rw [if_neg h]
    simp only [List.lookup, hb]
    exact lookup_map_value σ (fun t => if t = ITerm.var x then u else t) v

theorem walk_var_rep (σ : Subst) (hf : Flat σ) (t : ITerm) (x : Nat)
    (hw : walk σ t = .var x) : List.lookup x σ = none := by
  cases t with
  | const c => simp [walk] at hw
  | var v =>
    simp only [walk] at hw
    cases hl : List.lookup v σ with
    | none =>
      rw [hl] at hw
      simp at hw
      subst hw
      exact hl
    | some u =>
      rw [hl] at hw
      simp at hw
      subst hw
      exact hf v x hl

theorem walk_bindVar_const (σ : Subst) (x : Nat) (u : ITerm) (t : ITerm) (c : Nat)
    (hx : List.lookup x σ = none) (hc : walk σ t = .const c) :
    walk (bindVar σ x u) t = .const c := by
  cases t with
  | const d => simpa [walk] using hc
  | var v =>
    simp only [walk] at hc ⊢
    rw [lookup_bindVar]
    by_cases hv : v = x
    · subst hv
      rw [hx] at hc
      simp at hc
    · rw [if_neg hv]
      cases hl : List.lookup v σ with
      | none =>
        rw [hl] at hc
        simp at hc
      | some w =>
        rw [hl] at hc
        simp only at hc
        subst hc
        simp

theorem bindVar_flat (σ : Subst) (x : Nat) (u : ITerm) (hf : Flat σ)
    (hx : List.lookup x σ = none)
    (hu : (∃ c, u = ITerm.const c) ∨
      (∃ y, u = ITerm.var y ∧ List.lookup y σ = none ∧ y ≠ x)) :
    Flat (bindVar σ x u) := by
  intro v w hvw
  rw [lookup_bindVar] at hvw ⊢
  by_cases hv : v = x
  · rw [if_pos hv] at hvw
    have hu' : u = ITerm.var w := by
      injection hvw
    rcases hu with ⟨c, hc⟩ | ⟨y, hy, hyl, hyx⟩
    · rw [hc] at hu'
      cases hu'
    · rw [hy] at hu'
      injection hu' with hyw
      subst hyw
      rw [if_neg hyx, hyl]
      rfl
  · rw [if_neg hv] at hvw
    cases hl : List.lookup v σ with
    | none =>
      rw [hl] at hvw
      cases hvw
    | some t =>
      rw [hl] at hvw
      simp only [Option.map_some'] at hvw
      injection hvw with ht
      by_cases htx : t = ITerm.var x
      · rw [if_pos htx] at ht
        rcases hu with ⟨c, hc⟩ | ⟨y, hy, hyl, hyx⟩
        · rw [hc] at ht
          cases ht
        · rw [hy] at ht
          injection ht with hyw
          subst hyw
          rw [if_neg hyx, hyl]
          rfl
      · rw [if_neg htx] at ht
        subst ht
        have hwx : w ≠ x := fun he => htx (by rw [he])
        rw [if_neg hwx, hf v w hl]
        rfl

theorem refines_self (σ : Subst) : Refines σ σ := fun _ _ h => h

theorem refines_trans (σ₃ σ₂ σ₁ : Subst) (h32 : Refines σ₃ σ₂)
    (h21 : Refines σ₂ σ₁) : Refines σ₃ σ₁ :=
  fun t c h => h32 t c (h21 t c h)

theorem refines_bindVar (σ : Subst) (x : Nat) (u : ITerm)
    (hx : List.lookup x σ = none) : Refines (bindVar σ x u) σ :=
  fun t c h => walk_bindVar_const σ x u t c hx h

theorem unifyTerm_spec (σ : Subst) (a b : ITerm) (σ' : Subst) (hf : Flat σ)
    (h : unifyTerm σ a b = some σ') : Flat σ' ∧ Refines σ' σ := by
  rcases hwa : walk σ a with c | x <;> rcases hwb : walk σ b with d | y <;>
    simp only [unifyTerm, hwa, hwb] at h
  · split at h
    · injection h with h'
      subst h'
      exact ⟨hf, refines_self σ⟩
    · cases h
  · have hy := walk_var_rep σ hf b y hwb
    injection h with h'
    subst h'
    exact ⟨bindVar_flat σ y _ hf hy (Or.inl ⟨c, rfl⟩), refines_bindVar σ y _ hy⟩
  · have hx := walk_var_rep σ hf a x hwa
    injection h with h'
    subst h'
    exact ⟨bindVar_flat σ x _ hf hx (Or.inl ⟨d, rfl⟩), refines_bindVar σ x _ hx⟩
  · have hx := walk_var_rep σ hf a x hwa
    have hy := walk_var_rep σ hf b y hwb
    split at h
    · injection h with h'
      subst h'
      exact ⟨hf, refines_self σ⟩
    · injection h with h'
      subst h'
      next hxy =>
        exact ⟨bindVar_flat σ x _ hf hx
            (Or.inr ⟨y, rfl, hy, fun he => hxy he.symm⟩),
          refines_bindVar σ x _ hx⟩

theorem unifyTerm_ground (σ : Subst) (a : ITerm) (σ' : Subst) (d : Nat)
    (hf : Flat σ) (h : unifyTerm σ a (.const d) = some σ') :
    walk σ' a = .const d := by
  have hwb : walk σ (.const d) = .const d := rfl
  rcases hwa : walk σ a with c | x
  · simp only [unifyTerm, hwa, hwb] at h
    split at h
    next hcd =>
      injection h with h'
      subst h'
      rw [hwa, hcd]
    next => cases h
  · simp only [unifyTerm, hwa, hwb] at h
    injection h with h'
    subst h'
    cases a with
    | const c => simp [walk] at hwa
    | var v =>
      simp only [walk]
      rw [lookup_bindVar]
      by_cases hv : v = x
      · rw [if_pos hv]
      · rw [if_neg hv]
        simp only [walk] at hwa
        cases hl : List.lookup v σ with
        | none =>
          rw [hl] at hwa
          simp at hwa
          exact absurd hwa hv
        | some u =>
          rw [hl] at hwa
          simp only at hwa
          subst hwa
          simp

theorem unifyArgs_spec :
    ∀ (args : List ITerm) (bs : List ITerm) (σ σ' : Subst), Flat σ →
      unifyArgs σ args bs = some σ' → (∀ b ∈ bs, b.isGround = true) →
      Flat σ' ∧ Refines σ' σ ∧ args.map (walk σ') = bs := by
  intro args
  induction args with
  | nil =>
    intro bs σ σ' hf h hg
    cases bs with
    | nil =>
      injection h with h'
      subst h'
      exact ⟨hf, refines_self σ, rfl⟩
    | cons b bs => cases h
  | cons a args ih =>
    intro bs σ σ' hf h hg
    cases bs with
    | nil => cases h
    | cons b bs =>
      simp only [unifyArgs] at h
      cases h1 : unifyTerm σ a b with
      | none =>
        rw [h1] at h
        cases h
      | some σ₁ =>
        rw [h1] at h
        simp only [Option.some_bind] at h
        have hb : b.isGround = true := hg b (by simp)
        cases b with
        | var y => simp [ITerm.isGround] at hb
        | const d =>
          have hspec := unifyTerm_spec σ a (.const d) σ₁ hf h1
          have hwa := unifyTerm_ground σ a σ₁ d hf h1
          have hrest := ih bs σ₁ σ' hspec.1 h
            (fun b' hb' => hg b' (by simp [hb']))
          refine ⟨hrest.1, refines_trans σ' σ₁ σ hrest.2.1 hspec.2, ?_⟩
          rw [List.map_cons, hrest.2.2]
          have : walk σ' a = .const d := hrest.2.1 a d hwa
          rw [this]

theorem unifyAtom_spec (σ : Subst) (a b : IAtom) (σ' : Subst) (hf : Flat σ)
    (h : unifyAtom σ a b = some σ') (hg : b.isGround = true) :
    Flat σ' ∧ Refines σ' σ ∧ applySubst σ' a = b := by
  unfold unifyAtom at h
  split at h
  next hpred =>
    have hargs := unifyArgs_spec a.args b.args σ σ' hf h
      (fun t ht => by
        have := (List.all_eq_true.1 hg) t ht
        exact this)
    refine ⟨hargs.1, hargs.2.1, ?_⟩
    rcases a with ⟨ap, aargs⟩
    rcases b with ⟨bp, bargs⟩
    simp only [applySubst]
    simp only at hpred
    rw [hpred]
    have := hargs.2.2
    simp only at this
    rw [this]
  next => cases h

theorem map_walk_refines (σ' σ : Subst) (hr : Refines σ' σ) :
    ∀ (ts bs : List ITerm), ts.map (walk σ) = bs →
      (∀ b ∈ bs, b.isGround = true) → ts.map (walk σ') = bs := by
  intro ts
  induction ts with
  | nil =>
    intro bs h hg
    simpa using h
  | cons t ts ih =>
    intro bs h hg
    cases bs with
    | nil => simp at h
    | cons b bs =>
      simp only [List.map_cons, List.cons.injEq] at h ⊢
      obtain ⟨h1, h2⟩ := h
      have hb : b.isGround = true := hg b (by simp)
      cases b with
      | var y => simp [ITerm.isGround] at hb
      | const d =>
        exact ⟨hr t d h1, ih bs h2 (fun b' hb' => hg b' (by simp [hb']))⟩

theorem applySubst_refines (σ' σ : Subst) (hr : Refines σ' σ) (a b : IAtom)
    (hab : applySubst σ a = b) (hb : b.isGround = true) :
    applySubst σ' a = b := by
  rcases a with ⟨ap, aargs⟩
  rcases b with ⟨bp, bargs⟩
  simp only [applySubst, IAtom.mk.injEq] at hab ⊢
  refine ⟨hab.1, ?_⟩
  exact map_walk_refines σ' σ hr aargs bargs hab.2
    (fun t ht => (List.all_eq_true.1 hb) t ht)

theorem unifyPremises_spec :
    ∀ (ps fs : List IAtom) (σ σ' : Subst), Flat σ →
      unifyPremises σ ps fs = some σ' → (∀ f ∈ fs, f.isGround = true) →
      Flat σ' ∧ Refines σ' σ ∧ ps.map (applySubst σ') = fs := by
  intro ps
  induction ps with
  | nil =>
    intro fs σ σ' hf h hg
    cases fs with
    | nil =>
      injection h with h'
      subst h'
      exact ⟨hf, refines_self σ, rfl⟩
    | cons f fs => cases h
  | cons p ps ih =>
    intro fs σ σ' hf h hg
    cases fs with
    | nil => cases h
    | cons f fs =>
      simp only [unifyPremises] at h
      cases h1 : unifyAtom σ p f with
      | none =>
        rw [h1] at h
        cases h
      | some σ₁ =>
        rw [h1] at h
        simp only [Option.some_bind] at h
        have hgf : f.isGround = true := hg f (by simp)
        have hspec := unifyAtom_spec σ p f σ₁ hf h1 hgf
        have hrest := ih fs σ₁ σ' hspec.1 h
          (fun f' hf' => hg f' (by simp [hf']))
        refine ⟨hrest.1, refines_trans σ' σ₁ σ hrest.2.1 hspec.2.1, ?_⟩
        rw [List.map_cons, hrest.2.2]
        have : applySubst σ' p = f :=
          applySubst_refines σ' σ₁ hrest.2.1 p f hspec.2.2 hgf
        rw [this]

theorem assign_sound (r : IRule) (fs : List IAtom) (out : IRule)
    (h : r.assign fs = .ok out) (hg : ∀ f ∈ fs, f.isGround = true) :
    out.premises = fs ∧ out.conclusion.isGround = true ∧
      ∃ σ : Subst, fs = r.premises.map (applySubst σ) ∧
        out.conclusion = applySubst σ r.conclusion := by
  unfold IRule.assign at h
  cases hu : unifyPremises [] r.premises fs with
  | none =>
    rw [hu] at h
    cases h
  | some σ =>
    rw [hu] at h
    simp only at h
    split at h
    next hgr =>
      injection h with h'
      subst h'
      have hspec := unifyPremises_spec r.premises fs [] σ flat_nil hu hg
      exact ⟨rfl, hgr, σ, hspec.2.2.symm, rfl⟩
    next => cases h

theorem assign_conclusion_ground (r : IRule) (fs : List IAtom) (out : IRule)
    (h : r.assign fs = .ok out) : out.conclusion.isGround = true := by
  unfold IRule.assign at h
  cases hu : unifyPremises [] r.premises fs with
  | none =>
    rw [hu] at h
    cases h
  | some σ =>
    rw [hu] at h
    simp only at h
    split at h
    next hgr =>
      injection h with h'
      subst h'
      exact hgr
    next => cases h

theorem assign_unbound (r : IRule) (fs : List IAtom) (σ : Subst)
    (hu : unifyPremises [] r.premises fs = some σ)
    (hng : (applySubst σ r.conclusion).isGround = false) :
    r.assign fs = .error .unboundConclusion := by
  unfold IRule.assign
  rw [hu]
  simp only
  rw [if_neg (by simp [hng])]

/-! Groundedness: seeds are ground, assign only produces ground
conclusions, so the fact set stays variable-free. -/

theorem toOption_eq_some (e : Except AssignFailure IRule) (x : IRule) :
    e.toOption = some x ↔ e = .ok x := by
  cases e <;> simp [Except.toOption]

theorem mem_saturate_derived (s : Sniffer) (r' : IRule) :
    r' ∈ s.saturate_derived ↔
      ∃ rule ∈ s.generative_rules, ∃ input,
        input ∈ List.sublistsLen rule.premises.length s.axioms ∧
        rule.assign input = .ok r' := by
  unfold Sniffer.saturate_derived
  rw [List.mem_flatMap]
  constructor
  · rintro ⟨rule, hrule, hmem⟩
    rcases List.mem_filterMap.1 hmem with ⟨input, hin, hass⟩
    exact ⟨rule, hrule, input, hin, (toOption_eq_some _ _).1 hass⟩
  · rintro ⟨rule, hrule, input, hin, hass⟩
    exact ⟨rule, hrule, List.mem_filterMap.2
      ⟨input, hin, (toOption_eq_some _ _).2 hass⟩⟩

theorem saturate_derived_ground (s : Sniffer) :
    ∀ r' ∈ s.saturate_derived, r'.conclusion.isGround = true := by
  intro r' hr'
  rcases (mem_saturate_derived s r').1 hr' with ⟨rule, _, input, _, hass⟩
  exact assign_conclusion_ground rule input r' hass

theorem internTerms_ground (ts : List STerm) (ids : IdentifierServer)
    (vars : List String) (hg : ∀ t ∈ ts, t.isGround = true) :
    ∀ u ∈ (internTerms ids vars ts).1, u.isGround = true := by
  induction ts generalizing ids vars with
  | nil => simp [internTerms]
  | cons t ts ih =>
    cases t with
    | const n =>
      rcases hI : ids.intern n with ⟨i, ids'⟩
      simp only [internTerms, hI]
      rcases h2 : internTerms ids' vars ts with ⟨rest, ids'', vars'⟩
      intro u hu
      rcases List.mem_cons.1 hu with h | h
      · subst h
        rfl
      · have := ih ids' vars (fun t' ht' => hg t' (by simp [ht']))
        rw [h2] at this
        exact this u h
    | var n =>
      have : STerm.isGround (.var n) = true := hg _ (by simp)
      simp [STerm.isGround] at this

theorem internSAtom_ground (ids : IdentifierServer) (vars : List String)
    (a : SAtom) (hg : a.isGround = true) :
    ((internSAtom ids vars a).1).isGround = true := by
  rcases hI : ids.intern a.pred with ⟨p, ids'⟩
  rcases hT : internTerms ids' vars a.args with ⟨ts, ids'', vars'⟩
  simp only [internSAtom, hI, hT, IAtom.isGround]
  rw [List.all_eq_true]
  intro u hu
  have := internTerms_ground a.args ids' vars
    (fun t ht => (List.all_eq_true.1 hg) t ht)
  rw [hT] at this
  exact this u hu

theorem load_rule_ground (s : Sniffer) (r : SRule)
    (hr : r.premises = [] → r.conclusion.isGround = true)
    (h : FactsGround s) : FactsGround (s.load_rule r) := by
  by_cases hp : r.premises = []
  · rcases h1 : internSAtom s.id_server [] r.conclusion with ⟨ia, ids', vs⟩
    simp only [Sniffer.load_rule, if_pos hp, h1, Sniffer.add_seed]
    intro x hx
    have hia : ia.isGround = true := by
      have := internSAtom_ground s.id_server [] r.conclusion (hr hp)
      rw [h1] at this
      exact this
    split at hx
    · exact h x hx
    · rcases List.mem_append.1 hx with h' | h'
      · exact h x h'
      · simp at h'
        subst h'
        exact hia
  · rcases h1 : internSRule s.id_server r with ⟨irule, ids'⟩
    simp only [Sniffer.load_rule, if_neg hp, h1]
    exact h

theorem new_ground (records : List SRule)
    (h : ∀ r ∈ records, r.premises = [] → r.conclusion.isGround = true) :
    FactsGround (Sniffer.new records) := by
  suffices hs : ∀ (L : List SRule) (s : Sniffer),
      (∀ r ∈ L, r.premises = [] → r.conclusion.isGround = true) →
      FactsGround s → FactsGround (L.foldl Sniffer.load_rule s) by
    exact hs records Sniffer.empty h (by intro a ha; simp [Sniffer.empty] at ha)
  intro L
  induction L with
  | nil => intro s _ hg; exact hg
  | cons r L ih =>
    intro s hL hg
    rw [List.foldl_cons]
    exact ih _ (fun r' hr' => hL r' (by simp [hr']))
      (load_rule_ground s r (hL r (by simp)) hg)

theorem foldl_satStep_ground (L : List IRule) (acc : Sniffer × Bool)
    (hL : ∀ r ∈ L, r.conclusion.isGround = true) (h : FactsGround acc.1) :
    FactsGround (L.foldl satStep acc).1 := by
  induction L generalizing acc with
  | nil => exact h
  | cons r L ih =>
    rw [List.foldl_cons]
    refine ih _ (fun r' hr' => hL r' (by simp [hr'])) ?_
    intro x hx
    rcases (mem_add_derived acc.1 r.conclusion r.premises x).1 hx with h' | h'
    · exact h x h'
    · subst h'
      exact hL r (by simp)

theorem saturate_ground (s : Sniffer) (h : FactsGround s) :
    FactsGround (s.saturate).1 :=
  foldl_satStep_ground _ _ (saturate_derived_ground s) h

theorem rounds_ground (s : Sniffer) (h : FactsGround s) (n : Nat) :
    FactsGround (s.rounds n) := by
  induction n with
  | zero => exact h
  | succ n ih => exact saturate_ground _ ih

/-- C5: when the seed records' conclusions are ground (the engine contract
for axioms), every atom in the fact set after any number of rounds is
variable-free; a successful assign always has a ground conclusion; and a
rule application whose instantiated conclusion is not fully ground fails
with `UnboundConclusion` (so inserts nothing). -/
theorem C5_groundedness :
    (∀ records : List SRule,
        (∀ r ∈ records, r.premises = [] → r.conclusion.isGround = true) →
        ∀ n : Nat, FactsGround ((Sniffer.new records).rounds n)) ∧
    (∀ (r : IRule) (fs : List IAtom) (out : IRule),
        r.assign fs = .ok out → out.conclusion.isGround = true) ∧
    (∀ (r : IRule) (fs : List IAtom) (σ : Subst),
        unifyPremises [] r.premises fs = some σ →
        (applySubst σ r.conclusion).isGround = false →
        r.assign fs = .error .unboundConclusion) := by
  exact ⟨fun records h n => rounds_ground _ (new_ground records h) n,
    assign_conclusion_ground, assign_unbound⟩

/-- C5 witness: applied to the tweety engine after one round, and to a
concrete rule application whose conclusion variable stays unbound
(`p(X) => q(Y)` against the fact `p(c)`). -/
theorem C5_groundedness_witness :
    FactsGround ((Sniffer.new tweetyRecords).rounds 1) ∧
      (⟨[⟨0, [.var 0]⟩], ⟨1, [.var 1]⟩⟩ : IRule).assign [⟨0, [.const 1]⟩] =
        .error .unboundConclusion :=
  ⟨C5_groundedness.1 tweetyRecords (by decide) 1,
    C5_groundedness.2.2 ⟨[⟨0, [.var 0]⟩], ⟨1, [.var 1]⟩⟩ [⟨0, [.const 1]⟩]
      [(0, ITerm.const 1)] (by rfl) (by rfl)⟩

/-! One saturation round: enumeration over the start-of-round fact set,
insertion afterwards, first writer wins, progress flag semantics. -/

theorem satStep_fst (acc : Sniffer × Bool) (r : IRule) :
    (satStep acc r).1 = (acc.1.add_derived r.conclusion r.premises).1 := rfl

theorem satStep_snd (acc : Sniffer × Bool) (r : IRule) :
    (satStep acc r).2 = (acc.2 || (acc.1.add_derived r.conclusion r.premises).2) := rfl

theorem add_derived_new (s : Sniffer) (a : IAtom) (df : List IAtom) :
    (s.add_derived a df).2 = !s.axioms.contains a := by
  simp only [Sniffer.add_derived]
  split
  next h =>
    rw [h]
    rfl
  next h =>
    cases hb : s.axioms.contains a with
    | true => exact absurd hb h
    | false => rfl

theorem add_derived_axioms_of_mem (s : Sniffer) (a : IAtom) (df : List IAtom)
    (h : a ∈ s.axioms) : (s.add_derived a df).1.axioms = s.axioms := by
  simp only [Sniffer.add_derived, if_pos (List.elem_iff.2 h)]

theorem foldl_satStep_mem (L : List IRule) (acc : Sniffer × Bool) (x : IAtom) :
    x ∈ (L.foldl satStep acc).1.axioms ↔
      x ∈ acc.1.axioms ∨ ∃ r ∈ L, r.conclusion = x := by
  induction L generalizing acc with
  | nil => simp
  | cons r L ih =>
    rw [List.foldl_cons, ih]
    have hstep : x ∈ (satStep acc r).1.axioms ↔
        x ∈ acc.1.axioms ∨ x = r.conclusion := by
      rw [satStep_fst]
      exact mem_add_derived acc.1 r.conclusion r.premises x
    rw [hstep]
    simp only [List.mem_cons]
    constructor
    · rintro ((h | h) | ⟨r', hr', hc⟩)
      · exact Or.inl h
      · exact Or.inr ⟨r, Or.inl rfl, h.symm⟩
      · exact Or.inr ⟨r', Or.inr hr', hc⟩
    · rintro (h | ⟨r', hr' | hr', hc⟩)
      · exact Or.inl (Or.inl h)
      · subst hr'
        exact Or.inl (Or.inr hc.symm)
      · exact Or.inr ⟨r', hr', hc⟩

theorem foldl_satStep_df_preserve (L : List IRule) (acc : Sniffer × Bool)
    (a : IAtom) (qs : List IAtom) (h : dfLookup acc.1.derived_from a = some qs) :
    dfLookup (L.foldl satStep acc).1.derived_from a = some qs := by
  induction L generalizing acc with
  | nil => exact h
  | cons r L ih =>
    rw [List.foldl_cons]
    refine ih _ ?_
    rw [satStep_fst, add_derived_df]
    exact dfLookup_orInsert_preserve _ _ _ _ _ h

theorem dfLookup_orInsert_other (m : List (IAtom × List IAtom)) (b : IAtom)
    (ps : List IAtom) (a : IAtom) (hne : b ≠ a) :
    dfLookup (dfOrInsert m b ps) a = dfLookup m a := by
  cases h : dfLookup m b with
  | some qs => simp [dfOrInsert, h]
  | none =>
    simp only [dfOrInsert, h, dfLookup]
    rw [if_neg hne]

theorem foldl_satStep_first_writer (L : List IRule) (acc : Sniffer × Bool)
    (a : IAtom) (h : dfLookup acc.1.derived_from a = none) :
    dfLookup (L.foldl satStep acc).1.derived_from a =
      (L.find? (fun r => r.conclusion == a)).map IRule.premises := by
  induction L generalizing acc with
  | nil => simpa using h
  | cons r L ih =>
    rw [List.foldl_cons]
    by_cases hc : r.conclusion = a
    · have hdf : dfLookup (satStep acc r).1.derived_from a = some r.premises := by
        rw [satStep_fst, add_derived_df]
        subst hc
        simp [dfOrInsert, h, dfLookup]
      rw [foldl_satStep_df_preserve L _ a r.premises hdf]
      rw [List.find?_cons_of_pos _ (by simp [hc])]
      rfl
    · have hdf : dfLookup (satStep acc r).1.derived_from a = none := by
        rw [satStep_fst, add_derived_df]
        rw [dfLookup_orInsert_other _ _ _ _ hc]
        exact h
      rw [ih _ hdf]
      rw [List.find?_cons_of_neg _ (by simp [hc])]

theorem foldl_satStep_true (L : List IRule) (acc : Sniffer × Bool)
    (h : acc.2 = true) : (L.foldl satStep acc).2 = true := by
  induction L generalizing acc with
  | nil => exact h
  | cons r L ih =>
    rw [List.foldl_cons]
    exact ih _ (by rw [satStep_snd, h, Bool.true_or])

theorem foldl_satStep_modified (L : List IRule) (t : Sniffer) (b : Bool) :
    (L.foldl satStep (t, b)).2 = true ↔
      b = true ∨ ∃ r ∈ L, r.conclusion ∉ t.axioms := by
  induction L generalizing t b with
  | nil => simp
  | cons r L ih =>
    rw [List.foldl_cons]
    by_cases hc : r.conclusion ∈ t.axioms
    · have hstep : satStep (t, b) r = ((t.add_derived r.conclusion r.premises).1, b) := by
        have h2 : (satStep (t, b) r).2 = b := by
          have htrue : t.axioms.contains r.conclusion = true := List.elem_iff.2 hc
          rw [satStep_snd, add_derived_new, htrue, Bool.not_true, Bool.or_false]
        exact Prod.ext (satStep_fst (t, b) r) h2
      rw [hstep]
      have hax : (t.add_derived r.conclusion r.premises).1.axioms = t.axioms :=
        add_derived_axioms_of_mem t r.conclusion r.premises hc
      rw [ih _ b, hax]
      constructor
      · rintro (h | ⟨r', hr', hm⟩)
        · exact Or.inl h
        · exact Or.inr ⟨r', List.mem_cons_of_mem r hr', hm⟩
      · rintro (h | ⟨r', hr', hm⟩)
        · exact Or.inl h
        · rcases List.mem_cons.1 hr' with he | he
          · subst he
            exact absurd hc hm
          · exact Or.inr ⟨r', he, hm⟩
    · have h2 : (satStep (t, b) r).2 = true := by
        have hfalse : t.axioms.contains r.conclusion = false := by
          cases hb : t.axioms.contains r.conclusion with
          | true => exact absurd (List.elem_iff.1 hb) hc
          | false => rfl
        rw [satStep_snd, add_derived_new, hfalse, Bool.not_false, Bool.or_true]
      refine iff_of_true (foldl_satStep_true L _ h2) ?_
      exact Or.inr ⟨r, List.mem_cons_self r L, hc⟩

theorem sublistsLen_nodup (l : List IAtom) (h : l.Nodup) (k : Nat) :
    (List.sublistsLen k l).Nodup := by
  have h1 : List.Sublist (List.sublistsLen k l) l.sublists' :=
    List.sublistsLen_sublist_sublists' k l
  exact (List.nodup_sublists'.2 h).sublist h1

/-- C7: one saturation round tries `assign` for every rule against every
size-matching combination drawn (each once) from the fact set as it stood
at the start of the round; afterwards the fact set has gained exactly the
successful conclusions, an existing justification entry survives, a fresh
conclusion's entry is the first successful candidate's premises, and the
round reports progress iff some candidate conclusion was absent. -/
theorem C7_round_semantics (s : Sniffer) :
    (∀ r' : IRule, r' ∈ s.saturate_derived ↔
        ∃ rule ∈ s.generative_rules, ∃ input,
          input ∈ List.sublistsLen rule.premises.length s.axioms ∧
          rule.assign input = .ok r') ∧
    (∀ a : IAtom, a ∈ (s.saturate).1.axioms ↔
        a ∈ s.axioms ∨ ∃ r' ∈ s.saturate_derived, r'.conclusion = a) ∧
    (∀ (a : IAtom) (qs : List IAtom), dfLookup s.derived_from a = some qs →
        dfLookup (s.saturate).1.derived_from a = some qs) ∧
    (∀ a : IAtom, dfLookup s.derived_from a = none →
        dfLookup (s.saturate).1.derived_from a =
          (s.saturate_derived.find? (fun r' => r'.conclusion == a)).map
            IRule.premises) ∧
    ((s.saturate).2 = true ↔
        ∃ r' ∈ s.saturate_derived, r'.conclusion ∉ s.axioms) ∧
    (s.axioms.Nodup → ∀ k, (List.sublistsLen k s.axioms).Nodup) := by
  refine ⟨mem_saturate_derived s, fun a => ?_, fun a qs h => ?_, fun a h => ?_,
    ?_, fun h k => sublistsLen_nodup s.axioms h k⟩
  · exact foldl_satStep_mem s.saturate_derived (s, false) a
  · exact foldl_satStep_df_preserve s.saturate_derived (s, false) a qs h
  · exact foldl_satStep_first_writer s.saturate_derived (s, false) a h
  · have h := foldl_satStep_modified s.saturate_derived s false
    simpa using h

/-- C7 witness: first-writer-wins applied to the fresh conclusion
`flies(tweety)` of the tweety engine's first round. -/
theorem C7_round_semantics_witness :
    dfLookup ((Sniffer.new tweetyRecords).saturate).1.derived_from
        ⟨2, [.const 1]⟩ =
      (((Sniffer.new tweetyRecords).saturate_derived.find?
          (fun r' => r'.conclusion == ⟨2, [.const 1]⟩)).map IRule.premises) :=
  (C7_round_semantics (Sniffer.new tweetyRecords)).2.2.2.1 ⟨2, [.const 1]⟩
    (by decide)

/-! Soundness invariants: every justification entry is a seed or a genuine
rule application, and every justified atom is ground. -/

theorem dfLookup_dfInsert_cases (m : List (IAtom × List IAtom)) (a : IAtom)
    (ps : List IAtom) (b : IAtom) (qs : List IAtom)
    (h : dfLookup (dfInsert m a ps) b = some qs) :
    (b = a ∧ qs = ps) ∨ dfLookup m b = some qs := by
  by_cases hb : b = a
  · subst hb
    rw [dfInsert_lookup_self] at h
    injection h with h'
    exact Or.inl ⟨rfl, h'.symm⟩
  · rw [dfLookup_dfInsert_other m a ps b hb] at h
    exact Or.inr h

theorem dfLookup_orInsert_cases (m : List (IAtom × List IAtom)) (a : IAtom)
    (ps : List IAtom) (b : IAtom) (qs : List IAtom)
    (h : dfLookup (dfOrInsert m a ps) b = some qs) :
    (b = a ∧ qs = ps) ∨ dfLookup m b = some qs := by
  by_cases hb : b = a
  · subst hb
    cases hl : dfLookup m b with
    | some qs' =>
      simp only [dfOrInsert, hl] at h
      exact Or.inr h
    | none =>
      simp only [dfOrInsert, hl, dfLookup, if_pos rfl] at h
      injection h with h'
      exact Or.inl ⟨rfl, h'.symm⟩
  · rw [dfLookup_orInsert_other m a ps b (fun he => hb he.symm)] at h
    exact Or.inr h

theorem foldl_satStep_just_sound (L : List IRule) (acc : Sniffer × Bool)
    (hL : ∀ r ∈ L, RuleApplies acc.1.generative_rules r.conclusion r.premises)
    (h : JustSound acc.1) : JustSound (L.foldl satStep acc).1 := by
  induction L generalizing acc with
  | nil => exact h
  | cons r L ih =>
    rw [List.foldl_cons]
    have heq : (satStep acc r).1.generative_rules = acc.1.generative_rules := by
      rw [satStep_fst, add_derived_rules]
    refine ih (satStep acc r) (fun r' hr' => ?_) (fun a ps hl => ?_)
    · rw [heq]
      exact hL r' (List.mem_cons_of_mem r hr')
    · rw [satStep_fst, add_derived_df] at hl
      rw [heq]
      rcases dfLookup_orInsert_cases _ _ _ _ _ hl with ⟨hba, hqs⟩ | hold
      · subst hba
        subst hqs
        exact Or.inr (hL r (List.mem_cons_self r L))
      · exact h a ps hold

theorem saturate_derived_applies (s : Sniffer) (hg : FactsGround s) :
    ∀ r' ∈ s.saturate_derived,
      RuleApplies s.generative_rules r'.conclusion r'.premises := by
  intro r' hr'
  rcases (mem_saturate_derived s r').1 hr' with ⟨rule, hrule, input, hin, hass⟩
  have hsub : ∀ f ∈ input, f ∈ s.axioms := by
    rcases List.mem_sublistsLen.1 hin with ⟨hsl, _⟩
    intro f hf
    exact hsl.mem hf
  have hgin : ∀ f ∈ input, f.isGround = true := fun f hf => hg f (hsub f hf)
  rcases assign_sound rule input r' hass hgin with ⟨hprem, _, σ, hfs, hconcl⟩
  refine ⟨rule, hrule, σ, ?_, hconcl⟩
  rw [hprem, hfs]

theorem saturate_just_sound (s : Sniffer) (hg : FactsGround s)
    (h : JustSound s) : JustSound (s.saturate).1 :=
  foldl_satStep_just_sound s.saturate_derived (s, false)
    (saturate_derived_applies s hg) h

theorem foldl_satStep_keys_ground (L : List IRule) (acc : Sniffer × Bool)
    (hL : ∀ r ∈ L, r.conclusion.isGround = true)
    (h : KeysGround acc.1) : KeysGround (L.foldl satStep acc).1 := by
  induction L generalizing acc with
  | nil => exact h
  | cons r L ih =>
    rw [List.foldl_cons]
    refine ih (satStep acc r) (fun r' hr' => hL r' (List.mem_cons_of_mem r hr'))
      (fun a ps hl => ?_)
    rw [satStep_fst, add_derived_df] at hl
    rcases dfLookup_orInsert_cases _ _ _ _ _ hl with ⟨hba, _⟩ | hold
    · subst hba
      exact hL r (List.mem_cons_self r L)
    · exact h a ps hold

theorem saturate_keys_ground (s : Sniffer) (h : KeysGround s) :
    KeysGround (s.saturate).1 :=
  foldl_satStep_keys_ground s.saturate_derived (s, false)
    (saturate_derived_ground s) h

theorem load_rule_keys_ground (s : Sniffer) (r : SRule)
    (hr : r.premises = [] → r.conclusion.isGround = true)
    (h : KeysGround s) : KeysGround (s.load_rule r) := by
  by_cases hp : r.premises = []
  · rcases h1 : internSAtom s.id_server [] r.conclusion with ⟨ia, ids', vs⟩
    have hia : ia.isGround = true := by
      have := internSAtom_ground s.id_server [] r.conclusion (hr hp)
      rw [h1] at this
      exact this
    simp only [Sniffer.load_rule, if_pos hp, h1, Sniffer.add_seed]
    intro a ps hl
    have hl' : dfLookup (dfInsert s.derived_from ia []) a = some ps := by
      split at hl <;> exact hl
    rcases dfLookup_dfInsert_cases _ _ _ _ _ hl' with ⟨hba, _⟩ | hold
    · subst hba
      exact hia
    · exact h a ps hold
  · rcases h1 : internSRule s.id_server r with ⟨irule, ids'⟩
    simp only [Sniffer.load_rule, if_neg hp, h1]
    exact h

theorem load_rule_df_values_nil (s : Sniffer) (r : SRule)
    (h : ∀ a ps, dfLookup s.derived_from a = some ps → ps = []) :
    ∀ a ps, dfLookup (s.load_rule r).derived_from a = some ps → ps = [] := by
  by_cases hp : r.premises = []
  · rcases h1 : internSAtom s.id_server [] r.conclusion with ⟨ia, ids', vs⟩
    simp only [Sniffer.load_rule, if_pos hp, h1, Sniffer.add_seed]
    intro a ps hl
    have hl' : dfLookup (dfInsert s.derived_from ia []) a = some ps := by
      split at hl <;> exact hl
    rcases dfLookup_dfInsert_cases _ _ _ _ _ hl' with ⟨_, hps⟩ | hold
    · exact hps
    · exact h a ps hold
  · rcases h1 : internSRule s.id_server r with ⟨irule, ids'⟩
    simp only [Sniffer.load_rule, if_neg hp, h1]
    exact h

theorem new_keys_ground (records : List SRule)
    (h : ∀ r ∈ records, r.premises = [] → r.conclusion.isGround = true) :
    KeysGround (Sniffer.new records) := by
  suffices hs : ∀ (L : List SRule) (s : Sniffer),
      (∀ r ∈ L, r.premises = [] → r.conclusion.isGround = true) →
      KeysGround s → KeysGround (L.foldl Sniffer.load_rule s) by
    exact hs records Sniffer.empty h (fun a ps hl => by cases hl)
  intro L
  induction L with
  | nil => intro s _ hg; exact hg
  | cons r L ih =>
    intro s hL hg
    rw [List.foldl_cons]
    exact ih _ (fun r' hr' => hL r' (by simp [hr']))
      (load_rule_keys_ground s r (hL r (by simp)) hg)

theorem new_df_values_nil (records : List SRule) :
    ∀ a ps, dfLookup (Sniffer.new records).derived_from a = some ps →
      ps = [] := by
  suffices hs : ∀ (L : List SRule) (s : Sniffer),
      (∀ a ps, dfLookup s.derived_from a = some ps → ps = []) →
      ∀ a ps, dfLookup (L.foldl Sniffer.load_rule s).derived_from a = some ps →
        ps = [] by
    exact hs records Sniffer.empty (fun a ps hl => by cases hl)
  intro L
  induction L with
  | nil => intro s hg; exact hg
  | cons r L ih =>
    intro s hg
    rw [List.foldl_cons]
    exact ih _ (load_rule_df_values_nil s r hg)

theorem new_just_sound (records : List SRule) : JustSound (Sniffer.new records) :=
  fun a ps hl => Or.inl (new_df_values_nil records a ps hl)

/-! From a ground internal atom the read-only conversions round-trip, and
every tree the builder returns is sound. -/

theorem toITermsRO_resolve (ids : IdentifierServer) :
    ∀ (ts : List STerm) (vars : List String) (its : List ITerm),
      toITermsRO ids ts vars = some its →
      (∀ u ∈ its, u.isGround = true) →
      resolveITerms ids its = some ts := by
  intro ts
  induction ts with
  | nil =>
    intro vars its h _
    injection h with h'
    subst h'
    rfl
  | cons t ts ih =>
    intro vars its h hg
    cases t with
    | const n =>
      cases hK : lookupName n ids.names with
      | none =>
        simp only [toITermsRO, hK] at h
        cases h
      | some i =>
        simp only [toITermsRO, hK] at h
        cases hR : toITermsRO ids ts vars with
        | none =>
          rw [hR] at h
          cases h
        | some rest =>
          rw [hR] at h
          simp only [Option.map_some'] at h
          injection h with h'
          subst h'
          have hres : resolveITerm ids (ITerm.const i) = some (STerm.const n) := by
            simp only [resolveITerm, IdentifierServer.resolve]
            rw [lookupName_get n ids.names i hK]
            rfl
          have hrest := ih vars rest hR (fun u hu => hg u (by simp [hu]))
          simp [resolveITerms, hres, hrest]
    | var n =>
      cases hv : lookupName n vars with
      | some v =>
        simp only [toITermsRO, hv] at h
        cases hR : toITermsRO ids ts vars with
        | none =>
          rw [hR] at h
          cases h
        | some rest =>
          rw [hR] at h
          simp only [Option.map_some'] at h
          injection h with h'
          subst h'
          have := hg (ITerm.var v) (by simp)
          simp [ITerm.isGround] at this
      | none =>
        simp only [toITermsRO, hv] at h
        cases hR : toITermsRO ids ts (vars ++ [n]) with
        | none =>
          rw [hR] at h
          cases h
        | some rest =>
          rw [hR] at h
          simp only [Option.map_some'] at h
          injection h with h'
          subst h'
          have := hg (ITerm.var vars.length) (by simp)
          simp [ITerm.isGround] at this

theorem toSAtomRO_of_RO (ids : IdentifierServer) (sa : SAtom) (ia : IAtom)
    (h : toIAtomRO ids sa = some ia) (hg : ia.isGround = true) :
    toSAtomRO ids ia = some sa := by
  unfold toIAtomRO at h
  cases hp : lookupName sa.pred ids.names with
  | none =>
    rw [hp] at h
    cases h
  | some p =>
    rw [hp] at h
    cases hts : toITermsRO ids sa.args [] with
    | none =>
      rw [hts] at h
      cases h
    | some ts =>
      rw [hts] at h
      simp only at h
      injection h with h'
      subst h'
      have hres : ids.resolve p = some sa.pred := by
        unfold IdentifierServer.resolve
        rw [lookupName_get sa.pred ids.names p hp]
      have hmap : resolveITerms ids ts = some sa.args :=
        toITermsRO_resolve ids sa.args [] ts hts
          (fun u hu => (List.all_eq_true.1 hg) u hu)
      unfold toSAtomRO
      simp only [hres, hmap]

theorem seqChildren_ok :
    ∀ (rs : List (Except BuildFailure DerivationTree)) (ts : List DerivationTree),
      seqChildren rs = .ok ts →
      List.Forall₂ (fun r t => r = Except.ok t) rs ts := by
  intro rs
  induction rs with
  | nil =>
    intro ts h
    injection h with h'
    subst h'
    exact List.Forall₂.nil
  | cons r rs ih =>
    intro ts h
    cases r with
    | error e =>
      simp only [seqChildren] at h
      cases h
    | ok t₀ =>
      simp only [seqChildren] at h
      cases hS : seqChildren rs with
      | error e =>
        rw [hS] at h
        cases h
      | ok ts' =>
        rw [hS] at h
        injection h with h'
        subst h'
        exact List.Forall₂.cons rfl (ih ts' hS)

theorem forall₂_mem_right {R : IAtom → DerivationTree → Prop} :
    ∀ {ps : List IAtom} {ts : List DerivationTree},
      List.Forall₂ R ps ts → ∀ t ∈ ts, ∃ p, R p t := by
  intro ps ts h
  induction h with
  | nil =>
    intro t ht
    simp at ht
  | cons h₁ _ ih =>
    intro t ht
    rcases List.mem_cons.1 ht with he | he
    · subst he
      exact ⟨_, h₁⟩
    · exact ih t he

theorem mapsRO_of_forall₂ (ids : IdentifierServer) :
    ∀ (ps : List IAtom) (ts : List DerivationTree),
      List.Forall₂
        (fun p t => toSAtomRO ids p = some (DerivationTree.rootAtom t)) ps ts →
      toSAtomsRO ids ps = some (ts.map DerivationTree.rootAtom) := by
  intro ps ts h
  induction h with
  | nil => rfl
  | cons h₁ _ ih => simp [toSAtomsRO, h₁, ih]

theorem dt_inner_sound (s : Sniffer) (hjs : JustSound s) :
    ∀ (fuel : Nat) (root : IAtom) (t : DerivationTree),
      s.dt_inner fuel root = .ok t →
      TreeSound s t ∧ toSAtomRO s.id_server root = some t.rootAtom := by
  intro fuel
  induction fuel with
  | zero =>
    intro root t h
    cases h
  | succ fuel ih =>
    intro root t h
    rw [Sniffer.dt_inner] at h
    cases hsa : toSAtomRO s.id_server root with
    | none =>
      simp only [hsa] at h
      exact Except.noConfusion h
    | some sa =>
      simp only [hsa] at h
      cases hps : dfLookup s.derived_from root with
      | none =>
        simp only [hps] at h
        exact Except.noConfusion h
      | some ps =>
        simp only [hps] at h
        cases hseq : seqChildren (ps.map fun p => s.dt_inner fuel p) with
        | error e =>
          simp only [hseq] at h
          exact Except.noConfusion h
        | ok ts =>
          simp only [hseq, Except.ok.injEq] at h
          subst h
          have hfa : List.Forall₂ (fun p t' => s.dt_inner fuel p = .ok t') ps ts :=
            List.forall₂_map_left_iff.1 (seqChildren_ok _ _ hseq)
          have hchild : List.Forall₂
              (fun p t' => TreeSound s t' ∧
                toSAtomRO s.id_server p = some (DerivationTree.rootAtom t'))
              ps ts :=
            hfa.imp (fun p t' hp => ih p t' hp)
          refine ⟨?_, rfl⟩
          rcases hjs root ps hps with hnil | ⟨r, hr, σ, hpr, hconcl⟩
          · subst hnil
            cases hchild
            exact TreeSound.leaf sa
          · refine TreeSound.node sa ts (fun k hk => ?_) ⟨r, hr, σ, ?_, ?_⟩
            · rcases forall₂_mem_right
                (hchild.imp (fun p t' hp => hp.1)) k hk with ⟨p, hT⟩
              exact hT
            · rw [← hpr]
              exact mapsRO_of_forall₂ s.id_server ps ts
                (hchild.imp (fun p t' hp => hp.2))
            · rw [← hconcl]
              exact hsa

theorem derivation_tree_sound (s : Sniffer) (hjs : JustSound s)
    (hkg : KeysGround s) (fuel : Nat) (root : SAtom) (t : DerivationTree)
    (h : s.derivation_tree fuel root = .ok t) : TreeSound s t := by
  unfold Sniffer.derivation_tree at h
  cases hia : toIAtomRO s.id_server root with
  | none =>
    simp only [hia] at h
    exact Except.noConfusion h
  | some ia =>
    simp only [hia] at h
    cases hps : dfLookup s.derived_from ia with
    | none =>
      simp only [hps] at h
      exact Except.noConfusion h
    | some ps =>
      simp only [hps] at h
      cases hseq : seqChildren (ps.map fun p => s.dt_inner fuel p) with
      | error e =>
        simp only [hseq] at h
        exact Except.noConfusion h
      | ok ts =>
        simp only [hseq, Except.ok.injEq] at h
        subst h
        have hfa : List.Forall₂ (fun p t' => s.dt_inner fuel p = .ok t') ps ts :=
          List.forall₂_map_left_iff.1 (seqChildren_ok _ _ hseq)
        have hchild : List.Forall₂
            (fun p t' => TreeSound s t' ∧
              toSAtomRO s.id_server p = some (DerivationTree.rootAtom t'))
            ps ts :=
          hfa.imp (fun p t' hp => dt_inner_sound s hjs fuel p t' hp)
        rcases hjs ia ps hps with hnil | ⟨r, hr, σ, hpr, hconcl⟩
        · subst hnil
          cases hchild
          exact TreeSound.leaf root
        · refine TreeSound.node root ts (fun k hk => ?_) ⟨r, hr, σ, ?_, ?_⟩
          · rcases forall₂_mem_right
              (hchild.imp (fun p t' hp => hp.1)) k hk with ⟨p, hT⟩
            exact hT
          · rw [← hpr]
            exact mapsRO_of_forall₂ s.id_server ps ts
              (hchild.imp (fun p t' hp => hp.2))
          · rw [← hconcl]
            exact toSAtomRO_of_RO s.id_server root ia hia (hkg ia ps hps)

theorem find_loop_sound :
    ∀ (fuel : Nat) (s : Sniffer) (ia : IAtom) (sa : SAtom) (t : DerivationTree),
      FactsGround s → KeysGround s → JustSound s →
      (Sniffer.find_loop fuel s ia sa).1 = .ok t →
      TreeSound (Sniffer.find_loop fuel s ia sa).2 t := by
  intro fuel
  induction fuel with
  | zero =>
    intro s ia sa t _ _ _ h
    cases h
  | succ fuel ih =>
    intro s ia sa t hfg hkg hjs h
    by_cases hc : s.axioms.contains ia = true
    · rw [Sniffer.find_loop, if_pos hc] at h ⊢
      cases hdt : s.derivation_tree (s.derived_from.length + 1) sa with
      | ok t' =>
        simp only [hdt] at h ⊢
        have ht : t' = t := by injection h
        subst ht
        exact derivation_tree_sound s hjs hkg _ sa t' hdt
      | error e =>
        simp only [hdt] at h
        cases e <;> exact FindResult.noConfusion h
    · rw [Sniffer.find_loop, if_neg hc] at h ⊢
      rcases hsat : s.saturate_result with ⟨s', e⟩
      simp only [hsat] at h ⊢
      have hs' : s' = (s.saturate).1 := by
        have hst := saturate_result_state s
        rw [hsat] at hst
        exact hst
      cases e with
      | ok u =>
        subst hs'
        exact ih _ ia sa t (saturate_ground s hfg) (saturate_keys_ground s hkg)
          (saturate_just_sound s hfg hjs) h
      | error f => exact FindResult.noConfusion h

/-- C1: for every derivation tree returned by a query against an engine
built from records whose seed conclusions are ground, every node of the
tree is a leaf or is justified by a rule of the rule set under some
substitution whose instantiated premises are exactly the children's atoms
and whose instantiated conclusion is exactly the node's atom. -/
theorem C1_derivation_soundness (records : List SRule) (target : SAtom)
    (fuel : Nat) (t : DerivationTree)
    (hg : ∀ r ∈ records, r.premises = [] → r.conclusion.isGround = true)
    (h : (Sniffer.find fuel (Sniffer.new records) target).1 = .ok t) :
    TreeSound (Sniffer.find fuel (Sniffer.new records) target).2 t := by
  rcases hI : internSAtom (Sniffer.new records).id_server [] target
    with ⟨ia, ids', vs⟩
  simp only [Sniffer.find, hI] at h ⊢
  exact find_loop_sound fuel _ ia target t (new_ground records hg)
    (new_keys_ground records hg) (new_just_sound records) h

/-- C1 witness: the tree the tweety engine returns for `flies(tweety)` is
sound. -/
theorem C1_derivation_soundness_witness :
    TreeSound
      (Sniffer.find 5 (Sniffer.new tweetyRecords) ⟨"flies", [.const "tweety"]⟩).2
      (.node ⟨"flies", [.const "tweety"]⟩ [.node ⟨"bird", [.const "tweety"]⟩ []]) :=
  C1_derivation_soundness tweetyRecords ⟨"flies", [.const "tweety"]⟩ 5
    (.node ⟨"flies", [.const "tweety"]⟩ [.node ⟨"bird", [.const "tweety"]⟩ []])
    (by decide) (by rfl)

end Pif
